import Mathlib

/-!
Verification of the chunk / merge / validate pipeline of TransLLM
(`project_translator.py`).

Python strings are modelled as `List Char` and a file as its raw character
content (as read in text mode, i.e. after line-ending normalization).
`readLines` models `f.readlines()`, `split_file` models
`FileChunker.split_file`, `remove_boundary_markers` and `merge_chunks`
model the `ChunkMerger` methods, `validate_translation`,
`clean_markdown_blocks`, `validate_chinese_characters`,
`validate_merged_file` and the provider dispatch of
`LLMTranslator.translate_chunk` model the identically named methods of
`ProjectTranslator` / `LLMTranslator`.  The external LLM request is an
opaque `Except` parameter (`.error` = the request raised an exception),
and `ast.parse` (the Python parser, external to this pipeline) enters
`validate_merged_file` as an opaque list of diagnostics.
-/

set_option maxRecDepth 10000

namespace TransLLM

/-- Whitespace as stripped by Python `str.strip()` and matched by `\s`
(ASCII range; the pipeline only ever feeds it ASCII whitespace). -/
def pyIsSpace (c : Char) : Bool :=
  c = ' ' || c = '\t' || c = '\n' || c = '\r' || c = '\x0b' || c = '\x0c'

/-- `str.strip()`: remove leading and trailing whitespace. -/
def pyStrip (s : List Char) : List Char :=
  ((s.dropWhile pyIsSpace).reverse.dropWhile pyIsSpace).reverse

/-- Worker for `pySplit`; the accumulator holds the current word reversed. -/
def pySplitGo : List Char → List Char → List (List Char)
  | acc, [] => if acc = [] then [] else [acc.reverse]
  | acc, c :: t =>
    if pyIsSpace c then
      if acc = [] then pySplitGo [] t else acc.reverse :: pySplitGo [] t
    else pySplitGo (c :: acc) t

/-- `str.split()` with no argument: split on whitespace runs, dropping
empty pieces. -/
def pySplit (s : List Char) : List (List Char) := pySplitGo [] s

/-- Worker for `pySplitlines`. -/
def pySplitlinesGo : List Char → List Char → List (List Char)
  | acc, [] => if acc = [] then [] else [acc.reverse]
  | acc, c :: t =>
    if c = '\n' then acc.reverse :: pySplitlinesGo [] t
    else pySplitlinesGo (c :: acc) t

/-- `str.splitlines()` on `'\n'`-terminated text (the only terminator that
occurs in this pipeline, since files are read in text mode): line ends are
not kept, a trailing newline does not produce an extra empty line. -/
def pySplitlines (s : List Char) : List (List Char) := pySplitlinesGo [] s

/-- Worker for `readLines`. -/
def readLinesGo : List Char → List Char → List (List Char)
  | acc, [] => if acc = [] then [] else [acc.reverse]
  | acc, c :: t =>
    if c = '\n' then (c :: acc).reverse :: readLinesGo [] t
    else readLinesGo (c :: acc) t

/-- `f.readlines()`: split after every `'\n'`, keeping the newline on each
line; the last line may lack one; an empty file gives no lines. -/
def readLines (s : List Char) : List (List Char) := readLinesGo [] s

/-- Does `s` start with the pattern `p`? (Python `str.startswith`.) -/
def startsWithStr : List Char → List Char → Bool
  | [], _ => true
  | _ :: _, [] => false
  | p :: ps, c :: cs => p = c && startsWithStr ps cs

/-- Is `needle` a contiguous substring of the second argument?
(Python `needle in haystack`.) -/
def containsStr (needle : List Char) : List Char → Bool
  | [] => startsWithStr needle []
  | c :: t => startsWithStr needle (c :: t) || containsStr needle t

/-- One decimal digit character (`48 = '0'`). -/
def digitChar (n : Nat) : Char := Char.ofNat (48 + n % 10)

/-- Fuelled decimal rendering of a natural number (most significant digit
first); fuel `n + 1` always suffices. -/
def natDigitsF : Nat → Nat → List Char
  | 0, _ => []
  | f + 1, n => if n < 10 then [digitChar n] else natDigitsF f (n / 10) ++ [digitChar (n % 10)]

/-- Decimal rendering of a natural number. -/
def natDigits (n : Nat) : List Char := natDigitsF (n + 1) n

/-- Python `f"{n:04d}"`: decimal digits zero-padded to width at least 4. -/
def pad4 (n : Nat) : List Char :=
  List.replicate (4 - (natDigits n).length) '0' ++ natDigits n

/-- The fixed part of a start marker, `"---CHUNK_START_"`. -/
def startPre : List Char :=
  ['-', '-', '-', 'C', 'H', 'U', 'N', 'K', '_', 'S', 'T', 'A', 'R', 'T', '_']

/-- The fixed part of an end marker, `"---CHUNK_END_"`. -/
def endPre : List Char :=
  ['-', '-', '-', 'C', 'H', 'U', 'N', 'K', '_', 'E', 'N', 'D', '_']

/-- `"---"`. -/
def tripleDash : List Char := ['-', '-', '-']

/-- `f"---CHUNK_START_{chunk_index:04d}---\n"`. -/
def startMarker (k : Nat) : List Char := startPre ++ pad4 k ++ tripleDash ++ ['\n']

/-- `f"---CHUNK_END_{chunk_index:04d}---\n"`. -/
def endMarker (k : Nat) : List Char := endPre ++ pad4 k ++ tripleDash ++ ['\n']

/-- The chunk record persisted by `split_file` (`chunk_data`, lines 162-170
of `project_translator.py`); `original_file` is omitted (it is the file the
record was derived from, fixed throughout). -/
structure ChunkRecord where
  chunk_index : Nat
  start_line : Nat
  end_line : Nat
  content : List Char
  has_start_marker : Bool
  has_end_marker : Bool
deriving DecidableEq, Repr

/-- `FileChunker.split_file` on the `readlines` result of one file.  The
Python loop `for i in range(0, len(lines), chunk_size)` is rendered as a map
over the chunk numbers `k` (so `i = k * chunk_size`): for a positive step,
`range(0, n, step)` has `(n + (step - 1)) / step` elements.  `chunk_size`
is positive in every configuration (`chunk_size: int = 150`). -/
def split_file (chunk_size : Nat) (lines : List (List Char)) : List ChunkRecord :=
  (List.range ((lines.length + (chunk_size - 1)) / chunk_size)).map (fun k =>
    let i := k * chunk_size
    let chunk_lines := (lines.drop i).take chunk_size
    let chunk_index := i / chunk_size
    { chunk_index := chunk_index
      start_line := i
      end_line := min (i + chunk_size) lines.length
      content :=
        (if 0 < i then startMarker chunk_index else []) ++ chunk_lines.flatten ++
          (if i + chunk_size < lines.length then endMarker chunk_index else [])
      has_start_marker := decide (0 < i)
      has_end_marker := decide (i + chunk_size < lines.length) })

/-- Strip the literal pattern `p` from the head of `s`, returning the
remainder on success. -/
def dropPre : List Char → List Char → Option (List Char)
  | [], s => some s
  | _ :: _, [] => none
  | p :: ps, c :: cs => if p = c then dropPre ps cs else none

/-- Consume the optional trailing newline of the marker pattern (`\n?`). -/
def dropOptNL : List Char → List Char
  | '\n' :: t => t
  | r => r

/-- One attempted match of the regular expression `PRE\d+---\n?` at the head
of `s`, with `re`'s greedy semantics (`\d+` cannot usefully backtrack since
`-` is not a digit); returns the remainder after the matched span. -/
def matchMarker (pre s : List Char) : Option (List Char) :=
  match dropPre pre s with
  | none => none
  | some r1 =>
    match r1 with
    | [] => none
    | c :: _ =>
      if c.isDigit then
        match dropPre tripleDash (r1.dropWhile Char.isDigit) with
        | none => none
        | some r3 => some (dropOptNL r3)
      else none

/-- Fuelled worker for `subMarker`: scan left to right, removing each
leftmost match and resuming after its end (the semantics of `re.sub`). -/
def subMarkerF (pre : List Char) : Nat → List Char → List Char
  | _, [] => []
  | 0, s => s
  | f + 1, c :: t =>
    match matchMarker pre (c :: t) with
    | some r => subMarkerF pre f r
    | none => c :: subMarkerF pre f t

/-- `re.sub(PRE + r'\d+---\n?', '', s)`. -/
def subMarker (pre s : List Char) : List Char := subMarkerF pre s.length s

/-- `ChunkMerger.remove_boundary_markers`: first scrub start markers, then
end markers. -/
def remove_boundary_markers (s : List Char) : List Char :=
  subMarker endPre (subMarker startPre s)

/-- Is there a match of the marker pattern anywhere in `s`? -/
def hasMarker (pre : List Char) : List Char → Bool
  | [] => false
  | c :: t => (matchMarker pre (c :: t)).isSome || hasMarker pre t

/-- One step of the stable insertion realizing
`chunk_files.sort(key=lambda x: x[1])`. -/
def insertByIdx (c : ChunkRecord) : List ChunkRecord → List ChunkRecord
  | [] => [c]
  | d :: ds => if c.chunk_index < d.chunk_index then c :: d :: ds else d :: insertByIdx c ds

/-- Stable sort of the discovered chunk records by `chunk_index`. -/
def sortByIndex (l : List ChunkRecord) : List ChunkRecord :=
  l.foldl (fun acc c => insertByIdx c acc) []

/-- The accumulation loop of `merge_chunks` (lines 406-419): before a
further chunk is appended, the previously appended piece gets a newline
glued on when it is nonempty and does not already end with one. -/
def mergeGlue : List Char → List (List Char) → List Char
  | prev, [] => prev
  | prev, c :: rest =>
    (if prev ≠ [] ∧ prev.getLast? ≠ some '\n' then prev ++ ['\n'] else prev) ++ mergeGlue c rest

/-- `''.join(merged_lines)` for the cleaned chunk contents in order. -/
def mergeContents : List (List Char) → List Char
  | [] => []
  | c :: rest => mergeGlue c rest

/-- `ChunkMerger.merge_chunks` on the chunk records found for one file;
`none` models `return False` on the `if not chunk_files` branch. -/
def merge_chunks (chunks : List ChunkRecord) : Option (List Char) :=
  match chunks with
  | [] => none
  | _ :: _ =>
    some (mergeContents ((sortByIndex chunks).map (fun c => remove_boundary_markers c.content)))

def slashSlash : List Char := "//".toList

def hashStr : List Char := "#".toList

/-- The bracket characters stripped by `validate_translation` before the
first-line token comparison (`replace('{','')` etc.). -/
def bracketChars : List Char := ['\x7b', '\x7d', '(', ')']

def stripBrackets (s : List Char) : List Char := s.filter (fun c => !(bracketChars.contains c))

/-- Word characters of the regex class `[\w]` (ASCII range). -/
def pyIsWord (c : Char) : Bool := c.isAlphanum || c = '_'

def fenceStr : List Char := "```".toList

/-- The suffix of `run` after its last `'\n'`. -/
def afterLastNL (run : List Char) : List Char :=
  (run.reverse.takeWhile (fun c => c ≠ '\n')).reverse

/-- `re.sub(r'^\s*```[\w]*\s*\n', '', content)`: remove one leading fence
line.  The pattern is anchored, so at most the very start can match; the
greedy `\s*\n` consumes the whitespace run after the fence up to and
including its last newline, and the pattern fails if that run has none. -/
def stripFenceOpen (s : List Char) : List Char :=
  match dropPre fenceStr (s.dropWhile pyIsSpace) with
  | none => s
  | some r2 =>
    let r3 := r2.dropWhile pyIsWord
    let run := r3.takeWhile pyIsSpace
    let rest := r3.dropWhile pyIsSpace
    if run.contains '\n' then afterLastNL run ++ rest else s

/-- Does `s` start a match of `\n\s*```\s*$`, i.e. a newline followed by a
fence and nothing but whitespace to the end of the string? -/
def isTrailFence (s : List Char) : Bool :=
  match s with
  | '\n' :: t =>
    match dropPre fenceStr (t.dropWhile pyIsSpace) with
    | some r => r.all pyIsSpace
    | none => false
  | _ => false

/-- `re.sub(r'\n\s*```\s*$', '', content)`: drop everything from the first
newline that opens a trailing fence; `$` makes the match run to the end. -/
def stripFenceClose : List Char → List Char
  | [] => []
  | c :: t => if isTrailFence (c :: t) then [] else c :: stripFenceClose t

/-- `ProjectTranslator.clean_markdown_blocks`. -/
def clean_markdown_blocks (s : List Char) : List Char :=
  stripFenceClose (stripFenceOpen s)

/-- The catastrophic-drift test of `validate_translation` (line 637):
`line_diff > max(10, len(original_lines) * 0.15)`.  Python computes the
right-hand side in binary floating point; for every realistic line count
the comparison of the integer `line_diff` against `n * 0.15` coincides
with exact rational arithmetic (the product's rounding error is far below
the distance of `0.15 * n` to the nearest distinct integer), so it is
modelled over `ℚ`. -/
def lineDriftTooBigP (no nt : Nat) : Prop :=
  ((((no : Int) - (nt : Int)).natAbs : ℚ)) > max 10 ((no : ℚ) * (15 / 100))

instance instDecidableLineDrift (no nt : Nat) : Decidable (lineDriftTooBigP no nt) :=
  decidable_of_iff (max 200 (3 * no) < 20 * ((no : Int) - (nt : Int)).natAbs) (by
    unfold lineDriftTooBigP
    rw [gt_iff_lt]
    rw [show ((no : ℚ) * (15 / 100)) = ((3 * no : ℕ) : ℚ) / 20 by push_cast; ring]
    rw [max_lt_iff, max_lt_iff, div_lt_iff₀ (by norm_num : (0 : ℚ) < 20)]
    constructor
    · rintro ⟨h1, h2⟩
      have h1q : (200 : ℚ) < 20 * ((((no : Int) - (nt : Int)).natAbs : ℕ) : ℚ) := by
        exact_mod_cast h1
      have h2q : ((3 * no : ℕ) : ℚ) < 20 * ((((no : Int) - (nt : Int)).natAbs : ℕ) : ℚ) := by
        exact_mod_cast h2
      exact ⟨by linarith, by linarith⟩
    · rintro ⟨h1, h2⟩
      have h1q : (200 : ℚ) < 20 * ((((no : Int) - (nt : Int)).natAbs : ℕ) : ℚ) := by linarith
      have h2q : ((3 * no : ℕ) : ℚ) < 20 * ((((no : Int) - (nt : Int)).natAbs : ℕ) : ℚ) := by
        linarith
      exact ⟨by exact_mod_cast h1q, by exact_mod_cast h2q⟩)

def lineDriftTooBig (no nt : Nat) : Bool := decide (lineDriftTooBigP no nt)

/-- The first-line repair of `validate_translation` (lines 641-654): when
both texts have a first line, the original's first line (trimmed) is
nonempty and opens no comment, and both trimmed first lines have
whitespace tokens, compare the leading tokens after stripping brackets;
the Python condition parses as
`(len(orig_tokens) > 0 and orig_tokens[0] != trans_tokens[0]) if trans_tokens else True`,
so an empty transformed token list also triggers the restore. -/
def firstLineFix (ol tl : List (List Char)) : List (List Char) :=
  match ol, tl with
  | o0 :: _, t0 :: ts =>
    let of0 := pyStrip o0
    let tf0 := pyStrip t0
    if of0 ≠ [] ∧ startsWithStr slashSlash of0 = false ∧ startsWithStr hashStr of0 = false then
      if (pySplit of0).length > 0 ∧ (pySplit tf0).length > 0 then
        let otoks := pySplit (stripBrackets of0)
        let ttoks := pySplit (stripBrackets tf0)
        if (match ttoks with
            | [] => true
            | tw :: _ => decide (otoks.length > 0 ∧ otoks.head? ≠ some tw)) = true
        then o0 :: ts else tl
      else tl
    else tl
  | _, _ => tl

/-- `ProjectTranslator.validate_translation`: reject catastrophic
line-count drift, otherwise repair the first line and rejoin the
transformed lines with `'\n'`. -/
def validate_translation (original_content translated_content : List Char) : List Char :=
  let original_lines := pySplitlines original_content
  let translated_lines := pySplitlines translated_content
  if original_lines.length ≠ translated_lines.length ∧
      lineDriftTooBig original_lines.length translated_lines.length = true then
    original_content
  else
    List.intercalate ['\n'] (firstLineFix original_lines translated_lines)

def strGroq : List Char := "groq".toList

def strOpenai : List Char := "openai".toList

def strAnthropic : List Char := "anthropic".toList

/-- `LLMTranslator.setup_client`: `true` iff a client is configured for the
provider, `false` models the `ValueError` for an unsupported provider name
(the import machinery itself is external). -/
def setup_client (provider : List Char) : Bool :=
  provider = strGroq || provider = strOpenai || provider = strAnthropic

/-- The `--llm-provider` choices offered by the command line interface. -/
def cliProviderChoices : List (List Char) := [strGroq, strOpenai, strAnthropic]

/-- `LLMTranslator.translate_chunk`.  The provider request is opaque:
`callResult = .ok r` is the returned message content, `.error` means the
request raised (the `except` branch then returns the original chunk
content).  No branch matches any other provider name, so the function
falls through and returns Python `None`, modelled by `none`. -/
def translate_chunk (provider : List Char) (callResult : Except Unit (List Char))
    (chunk_content : List Char) : Option (List Char) :=
  if provider = strGroq ∨ provider = strOpenai then
    match callResult with
    | .ok r => some (pyStrip r)
    | .error _ => some chunk_content
  else none

/-- `ProjectTranslator.translate_chunk_with_semaphore`, restricted to one
chunk: `some` is the translated chunk record written to disk
(`return True`), `none` models `return False` — in particular, a `None`
translation makes `clean_markdown_blocks` raise `TypeError`, which the
`except` swallows, so no artifact is written for the chunk. -/
def translate_chunk_with_semaphore (provider : List Char)
    (callResult : Except Unit (List Char)) (cd : ChunkRecord) : Option ChunkRecord :=
  match translate_chunk provider callResult cd.content with
  | none => none
  | some tc =>
    some { cd with content := validate_translation cd.content (clean_markdown_blocks tc) }

/-- The diagnostics produced by `validate_merged_file` and its helpers.
The Python code renders each as a human-readable string; here each carries
the data the checks compute. -/
inductive Diag where
  | lineCountMismatch (original merged : Nat)
  | pyParseError (detail : Nat)
  | structureChanged
  | lostChinese (chars : List Char)
  | newChinese (chars : List Char)
  | notTranslatedChinese (chars : List Char)
  | indentMismatch (line origIndent transIndent : Nat)
  | mergeFailed
deriving DecidableEq, Repr

/-- The per-file result dict `{'valid': ..., 'errors': ...}`. -/
structure CheckResult where
  valid : Bool
  errors : List Diag
deriving DecidableEq, Repr

/-- The character class of `chinese_pattern`, `[一-鿿]`. -/
def isCJK (c : Char) : Bool := 0x4e00 ≤ c.toNat && c.toNat ≤ 0x9fff

/-- `set(chinese_pattern.findall(s))`: a Python set of characters, modelled
as a duplicate-free list. -/
def cjkSet (s : List Char) : List Char := (s.filter isCJK).dedup

/-- Python set difference `a - b`. -/
def setDiff (a b : List Char) : List Char := a.filter (fun c => !(b.contains c))

/-- Python set intersection `a & b`. -/
def setInter (a b : List Char) : List Char := a.filter (fun c => b.contains c)

/-- One step of sorting for `sortedChars`. -/
def insertChar (c : Char) : List Char → List Char
  | [] => [c]
  | d :: ds => if c ≤ d then c :: d :: ds else d :: insertChar c ds

/-- `''.join(sorted(chars))`: the set's characters in increasing order. -/
def sortedChars (l : List Char) : List Char := l.foldr insertChar []

def preserveTag : List Char := "PRESERVE_CHINESE_CHARACTERS".toList

def translateTag : List Char := "TRANSLATE_CHINESE_CHARACTERS".toList

/-- `ProjectTranslator.validate_chinese_characters`: the scripted-character
check, keyed on which policy tag occurs in `custom_instructions`; the
`elif` gives the preserve tag precedence when both occur. -/
def validate_chinese_characters (custom_instructions original translated : List Char) :
    CheckResult :=
  let original_chinese := cjkSet original
  let translated_chinese := cjkSet translated
  let preserve_chinese := containsStr preserveTag custom_instructions
  let translate_chinese := containsStr translateTag custom_instructions
  let errors :=
    if preserve_chinese then
      (let lost_chars := setDiff original_chinese translated_chinese
       if lost_chars ≠ [] then [Diag.lostChinese (sortedChars lost_chars)] else []) ++
      (let new_chars := setDiff translated_chinese original_chinese
       if new_chars ≠ [] then [Diag.newChinese (sortedChars new_chars)] else [])
    else if translate_chinese then
      let remaining_chars := setInter translated_chinese original_chinese
      if remaining_chars ≠ [] then [Diag.notTranslatedChinese (sortedChars remaining_chars)] else []
    else []
  ⟨decide (errors = []), errors⟩

/-- `str.isalnum` (ASCII approximation; adequacy is not load-bearing for
any claim: the structural-skeleton check's value is never relied on). -/
def pyIsAlnum (c : Char) : Bool := c.isAlphanum

/-- The characters kept verbatim by `extract_structure`. -/
def structChars : List Char :=
  ['\x7b', '\x7d', '(', ')', '[', ']', ';', ',', '=', '+', '-', '*', '/', '<', '>', '!', '&', '|']

/-- The per-line character loop of `extract_structure`; the accumulator is
the structure line built so far, reversed. -/
def structLineGo : List Char → List Char → List Char
  | acc, [] => acc.reverse
  | acc, c :: t =>
    if structChars.contains c then structLineGo (c :: acc) t
    else if pyIsAlnum c || c = '_' then
      if acc = [] ∨ pyIsAlnum (acc.headD ' ') = false then structLineGo (c :: acc) t
      else structLineGo acc t
    else if c = ' ' || c = '\t' then
      if acc ≠ [] ∧ acc.headD ' ' ≠ ' ' then structLineGo (' ' :: acc) t
      else structLineGo acc t
    else structLineGo acc t

/-- `ProjectTranslator.extract_structure` as the list of structure lines
(the Python code joins them with `'\n'`; the lines contain no newline, so
the joined strings are equal iff these lists are). -/
def extract_structure (lines : List (List Char)) : List (List Char) :=
  lines.filterMap (fun line =>
    let stripped := pyStrip line
    if stripped = [] ∨ startsWithStr hashStr stripped = true ∨
        startsWithStr slashSlash stripped = true then none
    else
      let sl := structLineGo [] stripped
      if sl = [] then none else some (pyStrip sl))

/-- `len(line) - len(line.lstrip())`. -/
def leadingWS (l : List Char) : Nat := (l.takeWhile pyIsSpace).length

/-- Worker for `validate_indentation` carrying the 1-based line number. -/
def validateIndentGo : Nat → List (List Char) → List (List Char) → List Diag
  | _, [], _ => []
  | _, _ :: _, [] => []
  | i, o :: os, t :: ts =>
    (if leadingWS o ≠ leadingWS t then [Diag.indentMismatch i (leadingWS o) (leadingWS t)]
     else []) ++ validateIndentGo (i + 1) os ts

/-- `ProjectTranslator.validate_indentation`. -/
def validate_indentation (original_lines translated_lines : List (List Char)) : List Diag :=
  if original_lines.length ≠ translated_lines.length then []
  else validateIndentGo 1 original_lines translated_lines

/-- `ProjectTranslator.validate_merged_file` on file contents.  Check 2
(`ast.parse`) is the external Python parser: its diagnostics enter through
`parse_errors` and count only for `.py` files (`isPy`). -/
def validate_merged_file (parse_errors : List Diag) (isPy : Bool)
    (custom_instructions original_content merged_content : List Char) : CheckResult :=
  let original_lines := pySplitlines original_content
  let merged_lines := pySplitlines merged_content
  let e1 :=
    if original_lines.length ≠ merged_lines.length then
      [Diag.lineCountMismatch original_lines.length merged_lines.length]
    else []
  let e2 := if isPy then parse_errors else []
  let e3 :=
    if extract_structure original_lines ≠ extract_structure merged_lines then
      [Diag.structureChanged]
    else []
  let chinese := validate_chinese_characters custom_instructions original_content merged_content
  let e4 := if chinese.valid = false then chinese.errors else []
  let e5 := validate_indentation original_lines merged_lines
  let errors := e1 ++ e2 ++ e3 ++ e4 ++ e5
  ⟨decide (errors = []), errors⟩

/-- The per-file merge step of `translate_project` (lines 536-550): a
failed merge is recorded as an invalid result with a merge-failure
diagnostic, otherwise the merged content is validated. -/
def file_merge_result (parse_errors : List Diag) (isPy : Bool)
    (custom_instructions original_content : List Char) (chunks : List ChunkRecord) :
    CheckResult :=
  match merge_chunks chunks with
  | some merged =>
    validate_merged_file parse_errors isPy custom_instructions original_content merged
  | none => ⟨false, [Diag.mergeFailed]⟩

/-! ### Lemmas about the chunker -/

theorem split_file_length (chunk_size : Nat) (lines : List (List Char)) :
    (split_file chunk_size lines).length = (lines.length + (chunk_size - 1)) / chunk_size := by
  simp [split_file]

/-- The record produced for chunk number `j`, normalized using
`j * cs / cs = j`. -/
theorem split_file_get (chunk_size : Nat) (hcs : 0 < chunk_size) (lines : List (List Char))
    (j : Nat) (h : j < (split_file chunk_size lines).length) :
    (split_file chunk_size lines).get ⟨j, h⟩ =
      { chunk_index := j
        start_line := j * chunk_size
        end_line := min (j * chunk_size + chunk_size) lines.length
        content :=
          (if 0 < j then startMarker j else []) ++
            ((lines.drop (j * chunk_size)).take chunk_size).flatten ++
            (if j * chunk_size + chunk_size < lines.length then endMarker j else [])
        has_start_marker := decide (0 < j)
        has_end_marker := decide (j * chunk_size + chunk_size < lines.length) } := by
  have hpos : ∀ k : Nat, (0 < k * chunk_size) = (0 < k) := by
    intro k
    simp [Nat.pos_iff_ne_zero, Nat.mul_eq_zero, Nat.pos_iff_ne_zero.mp hcs]
  simp only [split_file, List.get_map, List.get_range,
    Nat.mul_div_cancel _ hcs, hpos]

theorem chunk_start_lt (chunk_size n j : Nat) (hcs : 0 < chunk_size)
    (hj : j < (n + (chunk_size - 1)) / chunk_size) : j * chunk_size < n := by
  have h1 : (j + 1) * chunk_size ≤ n + (chunk_size - 1) :=
    (Nat.le_div_iff_mul_le hcs).mp hj
  have h2 : 1 * chunk_size ≤ n + (chunk_size - 1) := by
    calc 1 * chunk_size ≤ (j + 1) * chunk_size := by
          exact Nat.mul_le_mul_right _ (by omega)
      _ ≤ n + (chunk_size - 1) := h1
  have h3 : (j + 1) * chunk_size = j * chunk_size + chunk_size := by ring
  have h4 : 1 * chunk_size = chunk_size := by ring
  omega

theorem len_le_numchunks_mul (chunk_size n : Nat) (hcs : 0 < chunk_size) :
    n ≤ ((n + (chunk_size - 1)) / chunk_size) * chunk_size := by
  have h1 : ((n + (chunk_size - 1)) / chunk_size) * chunk_size +
      (n + (chunk_size - 1)) % chunk_size = n + (chunk_size - 1) := by
    rw [Nat.mul_comm]
    exact Nat.div_add_mod _ _
  have h2 : (n + (chunk_size - 1)) % chunk_size < chunk_size := Nat.mod_lt _ hcs
  omega

/-- C4: for every file and positive chunk size, the chunk records produced
by `split_file` have `chunk_index` contiguous from 0 and line ranges
`[start_line, end_line)` that exactly tile `[0, total_lines)`: consecutive
ranges abut, start lines are strictly increasing, the first range starts at
0 and the last ends at `total_lines`; an empty file yields no chunks and a
nonempty file of at most `chunk_size` lines yields exactly one chunk. -/
theorem c4_split_file_tiling (chunk_size : Nat) (lines : List (List Char))
    (hcs : 0 < chunk_size) :
    (∀ j, ∀ h : j < (split_file chunk_size lines).length,
        ((split_file chunk_size lines).get ⟨j, h⟩).chunk_index = j ∧
        ((split_file chunk_size lines).get ⟨j, h⟩).start_line = j * chunk_size ∧
        ((split_file chunk_size lines).get ⟨j, h⟩).end_line =
          min ((j + 1) * chunk_size) lines.length) ∧
    (∀ j, ∀ h : j + 1 < (split_file chunk_size lines).length,
        ((split_file chunk_size lines).get ⟨j, Nat.lt_of_succ_lt h⟩).end_line =
          ((split_file chunk_size lines).get ⟨j + 1, h⟩).start_line) ∧
    (∀ j j', ∀ h : j < (split_file chunk_size lines).length,
        ∀ h' : j' < (split_file chunk_size lines).length, j < j' →
        ((split_file chunk_size lines).get ⟨j, h⟩).start_line <
          ((split_file chunk_size lines).get ⟨j', h'⟩).start_line) ∧
    (lines ≠ [] → (split_file chunk_size lines) ≠ [] ∧
        ((split_file chunk_size lines).head?.map ChunkRecord.start_line) = some 0 ∧
        ((split_file chunk_size lines).getLast?.map ChunkRecord.end_line) =
          some lines.length) ∧
    (lines = [] → split_file chunk_size lines = []) ∧
    (lines ≠ [] → lines.length ≤ chunk_size → (split_file chunk_size lines).length = 1) := by
  have hlen := split_file_length chunk_size lines
  refine ⟨?_, ?_, ?_, ?_, ?_, ?_⟩
  · intro j h
    rw [split_file_get chunk_size hcs lines j h]
    refine ⟨rfl, rfl, ?_⟩
    have : (j + 1) * chunk_size = j * chunk_size + chunk_size := by ring
    rw [this]
  · intro j h
    rw [split_file_get chunk_size hcs lines j (Nat.lt_of_succ_lt h),
      split_file_get chunk_size hcs lines (j + 1) h]
    have hj1 : (j + 1) * chunk_size < lines.length := by
      apply chunk_start_lt chunk_size lines.length (j + 1) hcs
      rw [hlen] at h
      exact h
    have : j * chunk_size + chunk_size = (j + 1) * chunk_size := by ring
    simp [this, Nat.min_eq_left (Nat.le_of_lt hj1)]
  · intro j j' h h' hjj
    rw [split_file_get chunk_size hcs lines j h, split_file_get chunk_size hcs lines j' h']
    exact (Nat.mul_lt_mul_right hcs).mpr hjj
  · intro hne
    have hlpos : 0 < lines.length := List.length_pos.mpr hne
    have hN : 0 < (split_file chunk_size lines).length := by
      rw [hlen]
      apply Nat.div_pos (by omega) hcs
    have hcksne : split_file chunk_size lines ≠ [] := by
      intro hx
      rw [hx] at hN
      simp at hN
    refine ⟨hcksne, ?_, ?_⟩
    · rw [List.head?_eq_head hcksne, ← List.get_mk_zero hN, split_file_get chunk_size hcs lines 0 hN]
      simp [Nat.min_eq_right]
    · have hNe : (split_file chunk_size lines).length - 1 < (split_file chunk_size lines).length := by
        omega
      rw [List.getLast?_eq_getLast _ hcksne, List.getLast_eq_get,
        split_file_get chunk_size hcs lines _ hNe]
      have hle : lines.length ≤ ((split_file chunk_size lines).length - 1) * chunk_size + chunk_size := by
        have := len_le_numchunks_mul chunk_size lines.length hcs
        rw [← hlen] at this
        have hexp : ((split_file chunk_size lines).length - 1) * chunk_size + chunk_size =
            (split_file chunk_size lines).length * chunk_size := by
          have : (split_file chunk_size lines).length - 1 + 1 = (split_file chunk_size lines).length := by omega
          calc ((split_file chunk_size lines).length - 1) * chunk_size + chunk_size
              = ((split_file chunk_size lines).length - 1 + 1) * chunk_size := by ring
            _ = (split_file chunk_size lines).length * chunk_size := by rw [this]
        omega
      simp [Nat.min_eq_right hle]
  · intro he
    subst he
    simp [split_file, Nat.div_eq_of_lt (by omega : chunk_size - 1 < chunk_size)]
  · intro hne hle
    have hlpos : 0 < lines.length := List.length_pos.mpr hne
    rw [hlen]
    have h1 : lines.length + (chunk_size - 1) < 2 * chunk_size := by omega
    have h2 : chunk_size ≤ lines.length + (chunk_size - 1) := by omega
    have hlow : 1 ≤ (lines.length + (chunk_size - 1)) / chunk_size :=
      (Nat.le_div_iff_mul_le hcs).mpr (by omega)
    have hhigh : (lines.length + (chunk_size - 1)) / chunk_size < 2 :=
      Nat.div_lt_of_lt_mul (by omega)
    omega

/-- Witness for C4 at the spec's concrete scenario: a 10-line file with
`chunk_size = 4` gives 3 chunks with ranges `[0,4) [4,8) [8,10)`. -/
theorem c4_split_file_tiling_witness :
    (0 : Nat) < 4 ∧
      ((split_file 4 (List.replicate 10 ['x', '\n'])).map
          (fun c => (c.chunk_index, c.start_line, c.end_line)) =
        [(0, 0, 4), (1, 4, 8), (2, 8, 10)]) ∧
      ((split_file 4 (List.replicate 10 ['x', '\n'])).get
          ⟨1, by decide⟩).start_line = 1 * 4 := by
  refine ⟨by decide, by decide, ?_⟩
  exact ((c4_split_file_tiling 4 (List.replicate 10 ['x', '\n']) (by decide)).1 1 (by decide)).2.1

/-! ### Lemmas about the boundary-marker scrubber -/

theorem dropPre_eq_some_iff (p : List Char) : ∀ s r, dropPre p s = some r ↔ s = p ++ r := by
  induction p with
  | nil => intro s r; simp [dropPre, eq_comm]
  | cons q ps ih =>
    intro s r
    cases s with
    | nil => simp [dropPre]
    | cons c cs =>
      by_cases hqc : q = c
      · subst hqc
        simp [dropPre, ih]
      · simp only [dropPre, if_neg hqc, List.cons_append]
        constructor
        · intro hx; exact absurd hx (by simp)
        · intro hx
          injection hx with h1 _
          exact absurd h1.symm hqc

theorem dropPre_self_append (p s : List Char) : dropPre p (p ++ s) = some s :=
  (dropPre_eq_some_iff p (p ++ s) s).mpr rfl

theorem getLast?_mem_of_eq {l : List Char} {c : Char} (h : l.getLast? = some c) : c ∈ l := by
  have h1 : l ≠ [] := by intro hx; subst hx; simp at h
  rw [List.getLast?_eq_getLast l h1] at h
  have h2 := List.getLast_mem h1
  rwa [Option.some_inj.mp h] at h2

theorem dropPre_append_distrib (p a b : List Char) (hp : '\n' ∉ p)
    (ha : a.getLast? = some '\n') :
    dropPre p (a ++ b) = (dropPre p a).map (fun r => r ++ b) := by
  cases hda : dropPre p a with
  | some r =>
    have hceq := (dropPre_eq_some_iff p a r).mp hda
    subst hceq
    rw [List.append_assoc, dropPre_self_append]
    rfl
  | none =>
    show dropPre p (a ++ b) = none
    cases hdab : dropPre p (a ++ b) with
    | none => rfl
    | some r' =>
      exfalso
      have heq := (dropPre_eq_some_iff p (a ++ b) r').mp hdab
      rcases (List.append_eq_append_iff.mp heq) with ⟨a', hpa, _⟩ | ⟨c', hac, _⟩
      · -- `p = a ++ a'`: the final newline of `a` would lie inside `p`
        exact hp (hpa ▸ List.mem_append_left a' (getLast?_mem_of_eq ha))
      · -- `a = p ++ c'`: then `dropPre p a` succeeds
        rw [(dropPre_eq_some_iff p a c').mpr hac] at hda
        exact Option.noConfusion hda

theorem dropOptNL_cons_ne {c : Char} (t : List Char) (h : c ≠ '\n') :
    dropOptNL (c :: t) = c :: t := by
  unfold dropOptNL
  split
  · next t' heq =>
    injection heq with h1 _
    exact absurd h1 h
  · rfl

theorem dropOptNL_suffix (r : List Char) : dropOptNL r <:+ r := by
  cases r with
  | nil => exact List.suffix_refl _
  | cons c t =>
    by_cases hc : c = '\n'
    · subst hc
      exact List.suffix_cons '\n' t
    · rw [dropOptNL_cons_ne t hc]

theorem dropOptNL_append {r : List Char} (b : List Char) (h : r ≠ []) :
    dropOptNL (r ++ b) = dropOptNL r ++ b := by
  cases r with
  | nil => exact absurd rfl h
  | cons c t =>
    by_cases hc : c = '\n'
    · subst hc
      rfl
    · rw [List.cons_append, dropOptNL_cons_ne t hc, dropOptNL_cons_ne (t ++ b) hc,
        List.cons_append]

theorem dropWhile_append_of_exists {p : Char → Bool} : ∀ (a b : List Char), (∃ x ∈ a, p x = false) →
    (a ++ b).dropWhile p = a.dropWhile p ++ b := by
  intro a
  induction a with
  | nil => intro b h; simp at h
  | cons c t ih =>
    intro b h
    by_cases hc : p c = true
    · have hwit : ∃ x ∈ t, p x = false := by
        rcases h with ⟨x, hx, hpx⟩
        rcases List.mem_cons.mp hx with rfl | hxt
        · rw [hc] at hpx; exact absurd hpx (by simp)
        · exact ⟨x, hxt, hpx⟩
      simp only [List.cons_append, List.dropWhile_cons, hc, if_true]
      exact ih b hwit
    · rw [Bool.not_eq_true] at hc
      simp [List.dropWhile_cons, hc]

theorem dropWhile_all_append {p : Char → Bool} : ∀ (a b : List Char), (∀ x ∈ a, p x = true) →
    (a ++ b).dropWhile p = b.dropWhile p := by
  intro a
  induction a with
  | nil => intro b _; rfl
  | cons c t ih =>
    intro b h
    have hc : p c = true := h c (List.mem_cons_self c t)
    simp only [List.cons_append, List.dropWhile_cons, hc, if_true]
    exact ih b (fun x hx => h x (List.mem_cons_of_mem c hx))

theorem dropWhile_ne_nil_of_exists {p : Char → Bool} : ∀ (a : List Char), (∃ x ∈ a, p x = false) →
    a.dropWhile p ≠ [] := by
  intro a
  induction a with
  | nil => intro h; simp at h
  | cons c t ih =>
    intro h
    by_cases hc : p c = true
    · have hwit : ∃ x ∈ t, p x = false := by
        rcases h with ⟨x, hx, hpx⟩
        rcases List.mem_cons.mp hx with rfl | hxt
        · rw [hc] at hpx; exact absurd hpx (by simp)
        · exact ⟨x, hxt, hpx⟩
      simpa [List.dropWhile_cons, hc] using ih hwit
    · rw [Bool.not_eq_true] at hc
      simp [List.dropWhile_cons, hc]

theorem suffix_getLast? {s l : List Char} (h : s <:+ l) (hs : s ≠ []) :
    l.getLast? = s.getLast? := by
  rcases h with ⟨u, rfl⟩
  exact List.getLast?_append_of_ne_nil u hs

/-- Full characterization of a successful marker match. -/
theorem matchMarker_eq_some_iff (pre s r : List Char) :
    matchMarker pre s = some r ↔
      ∃ c t r3, dropPre pre s = some (c :: t) ∧ c.isDigit = true ∧
        dropPre tripleDash ((c :: t).dropWhile Char.isDigit) = some r3 ∧ r = dropOptNL r3 := by
  constructor
  · intro h
    unfold matchMarker at h
    cases hda : dropPre pre s with
    | none => rw [hda] at h; exact absurd h (by simp)
    | some r1 =>
      rw [hda] at h
      dsimp only at h
      cases r1 with
      | nil => exact absurd h (by simp)
      | cons c t =>
        dsimp only at h
        by_cases hd : c.isDigit
        · rw [if_pos hd] at h
          cases hdd : dropPre tripleDash ((c :: t).dropWhile Char.isDigit) with
          | none => rw [hdd] at h; exact absurd h (by simp)
          | some r3 =>
            rw [hdd] at h
            dsimp only at h
            exact ⟨c, t, r3, rfl, hd, hdd, (Option.some_inj.mp h).symm⟩
        · rw [if_neg hd] at h
          exact absurd h (by simp)
  · rintro ⟨c, t, r3, hda, hd, hdd, hr⟩
    unfold matchMarker
    rw [hda]
    dsimp only
    rw [if_pos hd, hdd]
    dsimp only
    rw [hr]

theorem matchMarker_nil (pre : List Char) : matchMarker pre [] = none := by
  cases hm : matchMarker pre [] with
  | none => rfl
  | some r =>
    rcases (matchMarker_eq_some_iff pre [] r).mp hm with ⟨c, t, r3, hda, _⟩
    have := (dropPre_eq_some_iff pre [] (c :: t)).mp hda
    exact absurd this.symm (by simp)

theorem matchMarker_some_suffix {pre s r : List Char} (h : matchMarker pre s = some r) :
    r <:+ s := by
  rcases (matchMarker_eq_some_iff pre s r).mp h with ⟨c, t, r3, hda, _, hdd, hr⟩
  have h1 : (c :: t) <:+ s := by
    rw [(dropPre_eq_some_iff pre s (c :: t)).mp hda]
    exact List.suffix_append pre (c :: t)
  have h2 : (c :: t).dropWhile Char.isDigit <:+ (c :: t) := List.dropWhile_suffix _
  have h3 : r3 <:+ (c :: t).dropWhile Char.isDigit := by
    rw [(dropPre_eq_some_iff tripleDash _ r3).mp hdd]
    exact List.suffix_append tripleDash r3
  have h4 : r <:+ r3 := hr ▸ dropOptNL_suffix r3
  exact h4.trans (h3.trans (h2.trans h1))

theorem matchMarker_some_length {pre s r : List Char} (hpre : pre ≠ [])
    (h : matchMarker pre s = some r) : r.length < s.length := by
  rcases (matchMarker_eq_some_iff pre s r).mp h with ⟨c, t, r3, hda, hd, hdd, hr⟩
  have hs : s.length = pre.length + (t.length + 1) := by
    rw [(dropPre_eq_some_iff pre s (c :: t)).mp hda, List.length_append]
    rfl
  have hdw : ((c :: t).dropWhile Char.isDigit).length ≤ t.length := by
    simp only [List.dropWhile_cons, hd, if_true]
    exact (List.dropWhile_suffix _).length_le
  have hr3 : ((c :: t).dropWhile Char.isDigit).length = 3 + r3.length := by
    rw [(dropPre_eq_some_iff tripleDash _ r3).mp hdd, List.length_append]
    rfl
  have hrr : r.length ≤ r3.length := by
    rw [hr]
    exact (dropOptNL_suffix r3).length_le
  have hpl : 1 ≤ pre.length := by
    cases pre with
    | nil => exact absurd rfl hpre
    | cons _ _ => simp
  omega

theorem matchMarker_mem {pre s r : List Char} (h : matchMarker pre s = some r) :
    ∀ c ∈ pre, c ∈ s := by
  intro x hx
  rcases (matchMarker_eq_some_iff pre s r).mp h with ⟨c, t, _, hda, _⟩
  rw [(dropPre_eq_some_iff pre s (c :: t)).mp hda]
  exact List.mem_append_left _ hx

theorem dash_mem_of_match {pre s r : List Char} (h : matchMarker pre s = some r) :
    ∃ c t, dropPre pre s = some (c :: t) ∧ c.isDigit = true ∧
      ∃ x ∈ (c :: t), Char.isDigit x = false := by
  rcases (matchMarker_eq_some_iff pre s r).mp h with ⟨c, t, r3, hda, hd, hdd, _⟩
  refine ⟨c, t, hda, hd, '-', ?_, by decide⟩
  have hsub : '-' ∈ (c :: t).dropWhile Char.isDigit := by
    rw [(dropPre_eq_some_iff tripleDash _ r3).mp hdd]
    exact List.mem_append_left r3 (by decide)
  exact (List.dropWhile_suffix _).subset hsub

theorem matchMarker_append_isSome {pre s r : List Char} (y : List Char)
    (h : matchMarker pre s = some r) : (matchMarker pre (s ++ y)).isSome = true := by
  rcases (matchMarker_eq_some_iff pre s r).mp h with ⟨c, t, r3, hda, hd, hdd, _⟩
  have hwit : ∃ x ∈ (c :: t), Char.isDigit x = false := by
    rcases dash_mem_of_match h with ⟨c', t', hda', _, hw⟩
    rw [hda'] at hda
    injection hda with hct
    injection hct with hc ht
    subst hc; subst ht
    exact hw
  have hda2 : dropPre pre (s ++ y) = some ((c :: t) ++ y) := by
    rw [(dropPre_eq_some_iff pre s (c :: t)).mp hda, List.append_assoc]
    exact dropPre_self_append pre _
  have hdw : ((c :: t) ++ y).dropWhile Char.isDigit =
      (c :: t).dropWhile Char.isDigit ++ y := dropWhile_append_of_exists _ y hwit
  have hdd2 : dropPre tripleDash (((c :: t) ++ y).dropWhile Char.isDigit) = some (r3 ++ y) := by
    rw [hdw, (dropPre_eq_some_iff tripleDash _ r3).mp hdd, List.append_assoc]
    exact dropPre_self_append tripleDash _
  have : matchMarker pre (s ++ y) = some (dropOptNL (r3 ++ y)) := by
    apply (matchMarker_eq_some_iff pre (s ++ y) _).mpr
    exact ⟨c, t ++ y, r3 ++ y, by rw [← List.cons_append]; exact hda2, hd, by
      rw [← List.cons_append]; exact hdd2, rfl⟩
  rw [this]
  rfl

/-- The seam lemma: when `a` ends with a newline (which the pattern can
only consume as its final optional character), a match at the head of
`a ++ b` is exactly a match at the head of `a`. -/
theorem matchMarker_append_eq {pre a : List Char} (b : List Char) (hp : '\n' ∉ pre)
    (ha : a.getLast? = some '\n') :
    matchMarker pre (a ++ b) = (matchMarker pre a).map (fun r => r ++ b) := by
  have hane : a ≠ [] := by intro hx; subst hx; simp at ha
  cases hm : matchMarker pre a with
  | some r =>
    rcases (matchMarker_eq_some_iff pre a r).mp hm with ⟨c, t, r3, hda, hd, hdd, hr⟩
    have hwit : ∃ x ∈ (c :: t), Char.isDigit x = false := by
      rcases dash_mem_of_match hm with ⟨c', t', hda', _, hw⟩
      rw [hda'] at hda
      injection hda with hct
      injection hct with hc ht
      subst hc; subst ht
      exact hw
    have hda2 : dropPre pre (a ++ b) = some (c :: (t ++ b)) := by
      rw [← List.cons_append, (dropPre_eq_some_iff pre a (c :: t)).mp hda, List.append_assoc]
      exact dropPre_self_append pre _
    have hdw : ((c :: t) ++ b).dropWhile Char.isDigit =
        (c :: t).dropWhile Char.isDigit ++ b := dropWhile_append_of_exists _ b hwit
    have hdd2 : dropPre tripleDash ((c :: (t ++ b)).dropWhile Char.isDigit) =
        some (r3 ++ b) := by
      rw [← List.cons_append, hdw, (dropPre_eq_some_iff tripleDash _ r3).mp hdd,
        List.append_assoc]
      exact dropPre_self_append tripleDash _
    have hr3ne : r3 ≠ [] := by
      intro hx
      subst hx
      have hsfx : tripleDash ++ ([] : List Char) <:+ a := by
        have h1 : (c :: t).dropWhile Char.isDigit <:+ (c :: t) := List.dropWhile_suffix _
        have h2 : (c :: t) <:+ a := by
          rw [(dropPre_eq_some_iff pre a (c :: t)).mp hda]
          exact List.suffix_append pre (c :: t)
        rw [← (dropPre_eq_some_iff tripleDash _ []).mp hdd]
        exact h1.trans h2
      have : a.getLast? = (tripleDash ++ ([] : List Char)).getLast? :=
        suffix_getLast? hsfx (by decide)
      rw [ha] at this
      exact absurd this (by decide)
    have : matchMarker pre (a ++ b) = some (dropOptNL (r3 ++ b)) :=
      (matchMarker_eq_some_iff pre (a ++ b) _).mpr ⟨c, t ++ b, r3 ++ b, hda2, hd, hdd2, rfl⟩
    rw [this, dropOptNL_append b hr3ne, hr]
    rfl
  | none =>
    show matchMarker pre (a ++ b) = none
    cases hm2 : matchMarker pre (a ++ b) with
    | none => rfl
    | some r' =>
      exfalso
      rcases (matchMarker_eq_some_iff pre (a ++ b) r').mp hm2 with ⟨c', t', r3', hda', hd', hdd', _⟩
      -- push the prefix match back into `a`
      rw [dropPre_append_distrib pre a b hp ha] at hda'
      cases hra : dropPre pre a with
      | none => rw [hra] at hda'; exact absurd hda' (by simp)
      | some ra =>
        rw [hra] at hda'
        have hrab : ra ++ b = c' :: t' := Option.some_inj.mp hda'
        have hrane : ra ≠ [] := by
          intro hx
          subst hx
          have hap : a = pre := by
            have := (dropPre_eq_some_iff pre a []).mp hra
            simpa using this
          exact hp (hap ▸ getLast?_mem_of_eq ha)
        obtain ⟨ca, ta, rfl⟩ : ∃ ca ta, ra = ca :: ta := by
          cases ra with
          | nil => exact absurd rfl hrane
          | cons ca ta => exact ⟨ca, ta, rfl⟩
        rw [List.cons_append] at hrab
        injection hrab with hca htb
        have hsfx : (ca :: ta) <:+ a := by
          rw [(dropPre_eq_some_iff pre a (ca :: ta)).mp hra]
          exact List.suffix_append pre _
        have hraend : (ca :: ta).getLast? = some '\n' := by
          rw [← suffix_getLast? hsfx (by simp)]
          exact ha
        have hnlmem : '\n' ∈ (ca :: ta) := getLast?_mem_of_eq hraend
        have hwit : ∃ x ∈ (ca :: ta), Char.isDigit x = false :=
          ⟨'\n', hnlmem, by decide⟩
        have hdwa : ((ca :: ta) ++ b).dropWhile Char.isDigit =
            (ca :: ta).dropWhile Char.isDigit ++ b := dropWhile_append_of_exists _ b hwit
        have hsfx2 : (ca :: ta).dropWhile Char.isDigit <:+ (ca :: ta) :=
          List.dropWhile_suffix _
        have hdwend : ((ca :: ta).dropWhile Char.isDigit).getLast? = some '\n' := by
          rw [← suffix_getLast? hsfx2 (dropWhile_ne_nil_of_exists _ hwit)]
          exact hraend
        have hdd3 : dropPre tripleDash ((ca :: ta).dropWhile Char.isDigit ++ b) =
            (dropPre tripleDash ((ca :: ta).dropWhile Char.isDigit)).map (fun r => r ++ b) :=
          dropPre_append_distrib _ _ b (by decide) hdwend
        have hct : c' :: t' = (ca :: ta) ++ b := by
          rw [List.cons_append, hca, htb]
        rw [hct, hdwa, hdd3] at hdd'
        cases hfin : dropPre tripleDash ((ca :: ta).dropWhile Char.isDigit) with
        | none => rw [hfin] at hdd'; exact absurd hdd' (by simp)
        | some r3a =>
          have : matchMarker pre a = some (dropOptNL r3a) :=
            (matchMarker_eq_some_iff pre a _).mpr
              ⟨ca, ta, r3a, hra, by rw [hca]; exact hd', hfin, rfl⟩
          rw [hm] at this
          exact Option.noConfusion this

theorem subMarkerF_congr {pre : List Char} (hpre : pre ≠ []) :
    ∀ f g s, s.length ≤ f → s.length ≤ g → subMarkerF pre f s = subMarkerF pre g s := by
  intro f
  induction f with
  | zero =>
    intro g s hf _
    have : s = [] := List.length_eq_zero.mp (Nat.le_zero.mp hf)
    subst this
    cases g <;> rfl
  | succ f ih =>
    intro g s hf hg
    cases s with
    | nil => cases g <;> rfl
    | cons c t =>
      cases g with
      | zero => exact absurd hg (by simp)
      | succ g' =>
        show subMarkerF pre (f + 1) (c :: t) = subMarkerF pre (g' + 1) (c :: t)
        unfold subMarkerF
        cases hm : matchMarker pre (c :: t) with
        | some r =>
          have hr : r.length < t.length + 1 := by
            have := matchMarker_some_length hpre hm
            simpa using this
          exact ih g' r (by simp at hf; omega) (by simp at hg; omega)
        | none =>
          rw [ih g' t (by simp at hf; omega) (by simp at hg; omega)]

theorem subMarker_nil (pre : List Char) : subMarker pre [] = [] := rfl

theorem subMarker_cons_match {pre s r : List Char} (hpre : pre ≠ [])
    (h : matchMarker pre s = some r) : subMarker pre s = subMarker pre r := by
  cases s with
  | nil => rw [matchMarker_nil] at h; exact absurd h (by simp)
  | cons c t =>
    show subMarkerF pre (t.length + 1) (c :: t) = subMarker pre r
    unfold subMarkerF
    rw [h]
    have hr : r.length ≤ t.length := by
      have := matchMarker_some_length hpre h
      simpa using Nat.lt_succ_iff.mp (by simpa using this)
    exact subMarkerF_congr hpre t.length r.length r hr (Nat.le_refl _)

theorem subMarker_cons_nomatch {pre : List Char} {c : Char} {t : List Char}
    (h : matchMarker pre (c :: t) = none) :
    subMarker pre (c :: t) = c :: subMarker pre t := by
  show subMarkerF pre (t.length + 1) (c :: t) = c :: subMarker pre t
  unfold subMarkerF
  rw [h]
  rfl

theorem subMarker_eq_self {pre : List Char} : ∀ {s : List Char},
    hasMarker pre s = false → subMarker pre s = s := by
  intro s
  induction s with
  | nil => intro _; rfl
  | cons c t ih =>
    intro h
    unfold hasMarker at h
    rw [Bool.or_eq_false_iff] at h
    have hm : matchMarker pre (c :: t) = none := by
      cases hmm : matchMarker pre (c :: t) with
      | none => rfl
      | some r => rw [hmm] at h; exact absurd h.1 (by simp)
    rw [subMarker_cons_nomatch hm, ih h.2]

theorem subMarker_append {pre : List Char} (hpre : pre ≠ []) (hp : '\n' ∉ pre) :
    ∀ n a b, a.length ≤ n → a.getLast? = some '\n' →
      subMarker pre (a ++ b) = subMarker pre a ++ subMarker pre b := by
  intro n
  induction n with
  | zero =>
    intro a b ha hend
    have : a = [] := List.length_eq_zero.mp (Nat.le_zero.mp ha)
    subst this
    simp at hend
  | succ n ih =>
    intro a b ha hend
    have hane : a ≠ [] := by intro hx; subst hx; simp at hend
    obtain ⟨c, t, rfl⟩ : ∃ c t, a = c :: t := by
      cases a with
      | nil => exact absurd rfl hane
      | cons c t => exact ⟨c, t, rfl⟩
    have hseam := matchMarker_append_eq b hp hend
    cases hm : matchMarker pre (c :: t) with
    | some r =>
      rw [hm] at hseam
      have hsub1 : subMarker pre ((c :: t) ++ b) = subMarker pre (r ++ b) :=
        subMarker_cons_match hpre (by simpa using hseam)
      have hrend : r = [] ∨ r.getLast? = some '\n' := by
        cases hre : r with
        | nil => exact Or.inl rfl
        | cons c0 t0 =>
          refine Or.inr ?_
          rw [← hre, ← suffix_getLast? (matchMarker_some_suffix hm) (by rw [hre]; simp)]
          exact hend
      have hrlen : r.length ≤ n := by
        have := matchMarker_some_length hpre hm
        simp at this ha
        omega
      rcases hrend with hre | hre
      · subst hre
        rw [subMarker_cons_match hpre hm, subMarker_nil]
        simpa using hsub1
      · rw [hsub1, ih r b hrlen hre, subMarker_cons_match hpre hm]
    | none =>
      rw [hm] at hseam
      have hm2 : matchMarker pre ((c :: t) ++ b) = none := by simpa using hseam
      rw [List.cons_append] at hm2
      rw [List.cons_append, subMarker_cons_nomatch hm2, subMarker_cons_nomatch hm]
      cases t with
      | nil => simp [subMarker_nil]
      | cons c1 t1 =>
        rw [List.getLast?_cons_cons] at hend
        have hlen : (c1 :: t1).length ≤ n := by
          simp only [List.length_cons] at ha ⊢
          omega
        rw [show (c1 :: t1 ++ b) = ((c1 :: t1) ++ b) from rfl, ih (c1 :: t1) b hlen hend]
        simp

/-! ### `hasMarker` lemmas -/

theorem hasMarker_append_right {pre s : List Char} (y : List Char)
    (h : hasMarker pre s = true) : hasMarker pre (s ++ y) = true := by
  induction s with
  | nil => simp [hasMarker] at h
  | cons c t ih =>
    unfold hasMarker at h
    rw [Bool.or_eq_true_iff] at h
    rw [List.cons_append]
    unfold hasMarker
    rw [Bool.or_eq_true_iff]
    rcases h with h | h
    · left
      rw [Option.isSome_iff_exists] at h
      rcases h with ⟨r, hr⟩
      rw [← List.cons_append]
      exact matchMarker_append_isSome y hr
    · right
      exact ih h

theorem hasMarker_append_left {pre s : List Char} (y : List Char)
    (h : hasMarker pre s = true) : hasMarker pre (y ++ s) = true := by
  induction y with
  | nil => simpa using h
  | cons c t ih =>
    rw [List.cons_append]
    unfold hasMarker
    rw [Bool.or_eq_true_iff]
    exact Or.inr ih

theorem hasMarker_infix_false {pre u x v : List Char}
    (h : hasMarker pre (u ++ (x ++ v)) = false) : hasMarker pre x = false := by
  by_contra hx
  rw [Bool.not_eq_false] at hx
  have h1 : hasMarker pre (x ++ v) = true := hasMarker_append_right v hx
  have h2 : hasMarker pre (u ++ (x ++ v)) = true := hasMarker_append_left u h1
  rw [h] at h2
  exact Bool.noConfusion h2

theorem hasMarker_chars {pre s : List Char} (h : hasMarker pre s = true) :
    ∀ c ∈ pre, c ∈ s := by
  induction s with
  | nil => simp [hasMarker] at h
  | cons c t ih =>
    unfold hasMarker at h
    rw [Bool.or_eq_true_iff] at h
    intro x hx
    rcases h with h | h
    · rw [Option.isSome_iff_exists] at h
      rcases h with ⟨r, hr⟩
      exact matchMarker_mem hr x hx
    · exact List.mem_cons_of_mem c (ih h x hx)

theorem hasMarker_false_of_not_mem {pre s : List Char} {c : Char} (hc : c ∈ pre)
    (hs : c ∉ s) : hasMarker pre s = false := by
  cases hm : hasMarker pre s with
  | false => rfl
  | true => exact absurd (hasMarker_chars hm c hc) hs

theorem hasMarker_of_mem_flatten {pre x : List Char} {ls : List (List Char)}
    (h : hasMarker pre ls.flatten = false) (hx : x ∈ ls) : hasMarker pre x = false := by
  rcases List.append_of_mem hx with ⟨u, v, rfl⟩
  rw [List.flatten_append, List.flatten_cons] at h
  exact hasMarker_infix_false h

/-! ### The scrubber on chunker-produced content -/

theorem digitChar_isDigit (n : Nat) : (digitChar n).isDigit = true := by
  unfold digitChar
  have h : n % 10 < 10 := Nat.mod_lt _ (by norm_num)
  set m := n % 10 with hm
  interval_cases m <;> decide

theorem natDigitsF_digits : ∀ f n, ∀ c ∈ natDigitsF f n, c.isDigit = true := by
  intro f
  induction f with
  | zero => intro n c hc; simp [natDigitsF] at hc
  | succ f ih =>
    intro n c hc
    unfold natDigitsF at hc
    by_cases hn : n < 10
    · rw [if_pos hn] at hc
      rw [List.mem_singleton.mp hc]
      exact digitChar_isDigit n
    · rw [if_neg hn] at hc
      rcases List.mem_append.mp hc with h | h
      · exact ih (n / 10) c h
      · rw [List.mem_singleton.mp h]
        exact digitChar_isDigit (n % 10)

theorem pad4_digits (k : Nat) : ∀ c ∈ pad4 k, c.isDigit = true := by
  intro c hc
  unfold pad4 at hc
  rcases List.mem_append.mp hc with h | h
  · rw [List.eq_of_mem_replicate h]
    decide
  · exact natDigitsF_digits _ _ c h

theorem natDigitsF_ne_nil (f n : Nat) (hf : 0 < f) : natDigitsF f n ≠ [] := by
  cases f with
  | zero => exact absurd hf (by simp)
  | succ f =>
    unfold natDigitsF
    by_cases hn : n < 10
    · simp [hn]
    · simp [hn]

theorem pad4_ne_nil (k : Nat) : pad4 k ≠ [] := by
  unfold pad4
  intro h
  rcases List.append_eq_nil.mp h with ⟨_, h2⟩
  exact natDigitsF_ne_nil _ _ (by omega) h2

/-- The matcher consumes a complete marker (prefix, padded index, dashes,
newline) and nothing more. -/
theorem matchMarker_marker (pre : List Char) (k : Nat) (X : List Char) :
    matchMarker pre ((pre ++ pad4 k ++ tripleDash ++ ['\n']) ++ X) = some X := by
  obtain ⟨d, ds, hds⟩ : ∃ d ds, pad4 k = d :: ds := by
    cases hp : pad4 k with
    | nil => exact absurd hp (pad4_ne_nil k)
    | cons d ds => exact ⟨d, ds, rfl⟩
  apply (matchMarker_eq_some_iff pre _ X).mpr
  refine ⟨d, ds ++ (tripleDash ++ ('\n' :: X)), '\n' :: X, ?_, ?_, ?_, rfl⟩
  · rw [show ((pre ++ pad4 k ++ tripleDash ++ ['\n']) ++ X) =
        pre ++ (d :: (ds ++ (tripleDash ++ ('\n' :: X)))) by
      rw [← List.cons_append, ← hds]; simp]
    exact dropPre_self_append pre _
  · exact pad4_digits k d (hds ▸ List.mem_cons_self d ds)
  · rw [show (d :: (ds ++ (tripleDash ++ ('\n' :: X)))) =
        (pad4 k) ++ (tripleDash ++ ('\n' :: X)) by rw [← List.cons_append, ← hds]]
    rw [dropWhile_all_append (pad4 k) _ (pad4_digits k)]
    rw [show (tripleDash ++ ('\n' :: X)).dropWhile Char.isDigit = tripleDash ++ ('\n' :: X) by
      show (('-' :: ['-', '-']) ++ ('\n' :: X)).dropWhile Char.isDigit = _
      rw [List.cons_append, List.dropWhile_cons]
      simp [tripleDash]]
    exact dropPre_self_append tripleDash _

theorem startMarker_shape (k : Nat) (X : List Char) :
    startMarker k ++ X = (startPre ++ pad4 k ++ tripleDash ++ ['\n']) ++ X := rfl

theorem endMarker_shape (k : Nat) (X : List Char) :
    endMarker k ++ X = (endPre ++ pad4 k ++ tripleDash ++ ['\n']) ++ X := rfl

theorem no_start_in_endMarker (k : Nat) : hasMarker startPre (endMarker k) = false := by
  apply hasMarker_false_of_not_mem (show 'S' ∈ startPre by decide)
  intro hmem
  unfold endMarker at hmem
  rcases List.mem_append.mp hmem with h | h
  · rcases List.mem_append.mp h with h' | h'
    · rcases List.mem_append.mp h' with h'' | h''
      · exact absurd h'' (by decide)
      · have := pad4_digits k 'S' h''
        exact absurd this (by decide)
    · exact absurd h' (by decide)
  · exact absurd h (by decide)

theorem subMarker_flatten_append {pre : List Char} (hpre : pre ≠ []) (hp : '\n' ∉ pre) :
    ∀ (ws : List (List Char)) (b : List Char),
      (∀ w ∈ ws, hasMarker pre w = false) →
      (∀ w ∈ ws.dropLast, w.getLast? = some '\n') →
      (b = [] ∨ ∀ w ∈ ws, w.getLast? = some '\n') →
      subMarker pre (ws.flatten ++ b) = ws.flatten ++ subMarker pre b := by
  intro ws
  induction ws with
  | nil => intro b _ _ _; simp
  | cons w ws' ih =>
    intro b h1 h2 h3
    cases ws' with
    | nil =>
      simp only [List.flatten_cons, List.flatten_nil, List.append_nil]
      rcases h3 with h3 | h3
      · subst h3
        rw [List.append_nil, subMarker_eq_self (h1 w (List.mem_cons_self w _)), subMarker_nil,
          List.append_nil]
      · have hw : w.getLast? = some '\n' := h3 w (List.mem_cons_self w _)
        rw [subMarker_append hpre hp w.length w b (Nat.le_refl _) hw,
          subMarker_eq_self (h1 w (List.mem_cons_self w _))]
    | cons w1 ws'' =>
      have hw : w.getLast? = some '\n' := by
        apply h2 w
        rw [List.dropLast_cons_of_ne_nil (by simp)]
        exact List.mem_cons_self w _
      simp only [List.flatten_cons]
      rw [List.append_assoc, subMarker_append hpre hp w.length w _ (Nat.le_refl _) hw,
        subMarker_eq_self (h1 w (List.mem_cons_self w _))]
      have ihx := ih b
        (fun x hx => h1 x (List.mem_cons_of_mem w hx))
        (fun x hx => by
          apply h2 x
          rw [List.dropLast_cons_of_ne_nil (by simp)]
          exact List.mem_cons_of_mem w hx)
        (by
          rcases h3 with h3 | h3
          · exact Or.inl h3
          · exact Or.inr (fun x hx => h3 x (List.mem_cons_of_mem w hx)))
      rw [List.flatten_cons] at ihx
      rw [ihx]
      simp [List.append_assoc]

/-- Scrubbing the content the chunker built for one chunk recovers exactly
the chunk's own lines, provided none of those lines contains a marker
occurrence and the lines are newline-terminated as `readlines` produces
them. -/
theorem remove_boundary_markers_content (k : Nat) (ws : List (List Char)) (sM eM : Prop)
    [Decidable sM] [Decidable eM]
    (h1 : ∀ w ∈ ws, hasMarker startPre w = false)
    (h2 : ∀ w ∈ ws, hasMarker endPre w = false)
    (h3 : ∀ w ∈ ws.dropLast, w.getLast? = some '\n')
    (h4 : eM → ∀ w ∈ ws, w.getLast? = some '\n') :
    remove_boundary_markers ((if sM then startMarker k else []) ++ ws.flatten ++
      (if eM then endMarker k else [])) = ws.flatten := by
  unfold remove_boundary_markers
  have hbE : (if eM then endMarker k else []) = [] ∨ ∀ w ∈ ws, w.getLast? = some '\n' := by
    by_cases heM : eM
    · exact Or.inr (h4 heM)
    · rw [if_neg heM]; exact Or.inl rfl
  have hstep1 : subMarker startPre
      ((if sM then startMarker k else []) ++ ws.flatten ++ (if eM then endMarker k else [])) =
      ws.flatten ++ subMarker startPre (if eM then endMarker k else []) := by
    by_cases hsM : sM
    · rw [if_pos hsM]
      rw [List.append_assoc, startMarker_shape]
      rw [subMarker_cons_match (by decide) (matchMarker_marker startPre k _)]
      exact subMarker_flatten_append (by decide) (by decide) ws _ h1 h3 hbE
    · rw [if_neg hsM, List.nil_append]
      exact subMarker_flatten_append (by decide) (by decide) ws _ h1 h3 hbE
  have hsE : subMarker startPre (if eM then endMarker k else []) =
      (if eM then endMarker k else []) := by
    by_cases heM : eM
    · rw [if_pos heM]
      exact subMarker_eq_self (no_start_in_endMarker k)
    · rw [if_neg heM]; exact subMarker_nil startPre
  rw [hstep1, hsE]
  have hstep2 : subMarker endPre (ws.flatten ++ (if eM then endMarker k else [])) =
      ws.flatten ++ subMarker endPre (if eM then endMarker k else []) :=
    subMarker_flatten_append (by decide) (by decide) ws _ h2 h3 hbE
  rw [hstep2]
  have heE : subMarker endPre (if eM then endMarker k else []) = [] := by
    by_cases heM : eM
    · rw [if_pos heM]
      rw [show endMarker k = endMarker k ++ [] by simp, endMarker_shape]
      rw [subMarker_cons_match (by decide) (matchMarker_marker endPre k [])]
      exact subMarker_nil endPre
    · rw [if_neg heM]; exact subMarker_nil endPre
  rw [heE, List.append_nil]

/-! ### `readlines` facts and the round-trip assembly -/

theorem readLinesGo_flatten : ∀ (s acc : List Char),
    (readLinesGo acc s).flatten = acc.reverse ++ s := by
  intro s
  induction s with
  | nil =>
    intro acc
    by_cases h : acc = []
    · subst h; simp [readLinesGo]
    · simp [readLinesGo, h]
  | cons c t ih =>
    intro acc
    by_cases hc : c = '\n'
    · subst hc
      simp [readLinesGo, ih []]
    · simp [readLinesGo, hc, ih (c :: acc)]

theorem readLines_flatten (s : List Char) : (readLines s).flatten = s := by
  simpa using readLinesGo_flatten s []

theorem readLinesGo_dropLast_nl : ∀ (s acc : List Char),
    ∀ w ∈ (readLinesGo acc s).dropLast, w.getLast? = some '\n' := by
  intro s
  induction s with
  | nil =>
    intro acc w hw
    by_cases h : acc = []
    · subst h; simp [readLinesGo] at hw
    · simp [readLinesGo, h] at hw
  | cons c t ih =>
    intro acc w hw
    by_cases hc : c = '\n'
    · subst hc
      rw [show readLinesGo acc ('\n' :: t) = (('\n' :: acc).reverse) :: readLinesGo [] t from by
        simp [readLinesGo]] at hw
      cases hgo : readLinesGo [] t with
      | nil => rw [hgo] at hw; simp at hw
      | cons y ys =>
        rw [hgo, List.dropLast_cons_of_ne_nil (by simp)] at hw
        rcases List.mem_cons.mp hw with rfl | hw'
        · rw [List.reverse_cons, List.getLast?_append_of_ne_nil _ (by simp)]
          rfl
        · exact ih [] w (by rw [hgo]; exact hw')
    · have hgo : readLinesGo acc (c :: t) = readLinesGo (c :: acc) t := by
        simp [readLinesGo, hc]
      rw [hgo] at hw
      exact ih (c :: acc) w hw

theorem range_windows_flatten (chunk_size : Nat) : ∀ (N : Nat) (ls : List (List Char)),
    ((List.range N).map (fun k => (ls.drop (k * chunk_size)).take chunk_size)).flatten =
      ls.take (N * chunk_size) := by
  intro N
  induction N with
  | zero => intro ls; simp
  | succ N ih =>
    intro ls
    rw [List.range_succ, List.map_append, List.flatten_append, ih]
    simp only [List.map_cons, List.map_nil, List.flatten_cons, List.flatten_nil,
      List.append_nil]
    rw [← List.take_add]
    congr 1
    ring

theorem mergeGlue_eq_flatten : ∀ (bs : List (List Char)) (b0 : List Char),
    (∀ x ∈ (b0 :: bs).dropLast, x.getLast? = some '\n') →
    mergeGlue b0 bs = (b0 :: bs).flatten := by
  intro bs
  induction bs with
  | nil => intro b0 _; simp [mergeGlue]
  | cons c rest ih =>
    intro b0 h
    have hb0 : b0.getLast? = some '\n' := by
      apply h b0
      rw [List.dropLast_cons_of_ne_nil (by simp)]
      exact List.mem_cons_self b0 _
    show (if b0 ≠ [] ∧ b0.getLast? ≠ some '\n' then b0 ++ ['\n'] else b0) ++ mergeGlue c rest = _
    rw [if_neg (by simp [hb0])]
    rw [ih c (fun x hx => by
      apply h x
      rw [List.dropLast_cons_of_ne_nil (by simp)]
      exact List.mem_cons_of_mem b0 hx)]
    simp

theorem insertByIdx_append (c : ChunkRecord) : ∀ acc,
    (∀ d ∈ acc, d.chunk_index < c.chunk_index) → insertByIdx c acc = acc ++ [c] := by
  intro acc
  induction acc with
  | nil => intro _; rfl
  | cons d ds ih =>
    intro h
    unfold insertByIdx
    rw [if_neg (by
      have := h d (List.mem_cons_self d ds)
      omega)]
    rw [ih (fun x hx => h x (List.mem_cons_of_mem d hx))]
    rfl

theorem foldl_insert_sorted : ∀ (l acc : List ChunkRecord),
    (acc ++ l).Pairwise (fun a b => a.chunk_index < b.chunk_index) →
    List.foldl (fun acc c => insertByIdx c acc) acc l = acc ++ l := by
  intro l
  induction l with
  | nil => intro acc _; simp
  | cons c t ih =>
    intro acc h
    have hins : insertByIdx c acc = acc ++ [c] := by
      apply insertByIdx_append
      intro d hd
      exact (List.pairwise_append.mp h).2.2 d hd c (List.mem_cons_self c t)
    show List.foldl _ (insertByIdx c acc) t = acc ++ c :: t
    rw [hins, ih (acc ++ [c]) (by simpa using h)]
    simp

theorem sortByIndex_of_sorted (l : List ChunkRecord)
    (h : l.Pairwise (fun a b => a.chunk_index < b.chunk_index)) : sortByIndex l = l := by
  unfold sortByIndex
  simpa using foldl_insert_sorted l [] (by simpa using h)

theorem merge_chunks_eq (chunks : List ChunkRecord) (h : chunks ≠ []) :
    merge_chunks chunks = some (mergeContents ((sortByIndex chunks).map
      (fun c => remove_boundary_markers c.content))) := by
  cases chunks with
  | nil => exact absurd rfl h
  | cons c t => rfl

theorem split_file_pairwise (chunk_size : Nat) (hcs : 0 < chunk_size)
    (lines : List (List Char)) :
    (split_file chunk_size lines).Pairwise (fun a b => a.chunk_index < b.chunk_index) := by
  unfold split_file
  rw [List.pairwise_map]
  apply List.Pairwise.imp ?_ (List.pairwise_lt_range _)
  intro a b hab
  simpa [Nat.mul_div_cancel _ hcs] using hab

/-- All lines of a window that stops strictly before the end of the file
are newline-terminated. -/
theorem window_all_nl (chunk_size : Nat) (lines : List (List Char))
    (hNL : ∀ w ∈ lines.dropLast, w.getLast? = some '\n') (i : Nat)
    (hi : i + chunk_size < lines.length) :
    ∀ w ∈ (lines.drop i).take chunk_size, w.getLast? = some '\n' := by
  intro w hw
  apply hNL
  have h1 : (lines.drop i).take chunk_size = (lines.take (i + chunk_size)).drop i :=
    List.take_drop i chunk_size lines
  rw [h1] at hw
  have h2 : w ∈ lines.take (i + chunk_size) := List.mem_of_mem_drop hw
  have h3 : lines.take (i + chunk_size) = (lines.take (lines.length - 1)).take (i + chunk_size) := by
    rw [List.take_take, Nat.min_eq_left (by omega)]
  rw [h3] at h2
  rw [List.dropLast_eq_take]
  exact List.mem_of_mem_take h2

theorem flatten_ends_nl : ∀ (ws : List (List Char)), ws ≠ [] →
    (∀ w ∈ ws, w.getLast? = some '\n') → ws.flatten.getLast? = some '\n' := by
  intro ws
  induction ws with
  | nil => intro h _; exact absurd rfl h
  | cons w ws' ih =>
    intro _ h
    cases ws' with
    | nil =>
      simp only [List.flatten_cons, List.flatten_nil, List.append_nil]
      exact h w (List.mem_cons_self w _)
    | cons w1 ws'' =>
      have hrec := ih (by simp) (fun x hx => h x (List.mem_cons_of_mem w hx))
      have hne : (w1 :: ws'').flatten ≠ [] := by
        intro hx
        rw [hx] at hrec
        simp at hrec
      rw [List.flatten_cons, List.getLast?_append_of_ne_nil _ hne]
      exact hrec

/-- The cleaned content of each chunk produced by `split_file` is exactly
the concatenation of the chunk's own window of lines. -/
theorem split_file_map_scrub (chunk_size : Nat) (hcs : 0 < chunk_size)
    (lines : List (List Char))
    (hS : ∀ w ∈ lines, hasMarker startPre w = false)
    (hE : ∀ w ∈ lines, hasMarker endPre w = false)
    (hNL : ∀ w ∈ lines.dropLast, w.getLast? = some '\n') :
    (split_file chunk_size lines).map (fun c => remove_boundary_markers c.content) =
      (List.range ((lines.length + (chunk_size - 1)) / chunk_size)).map
        (fun k => ((lines.drop (k * chunk_size)).take chunk_size).flatten) := by
  unfold split_file
  rw [List.map_map]
  apply List.map_congr_left
  intro k hk
  rw [List.mem_range] at hk
  have hkl : k * chunk_size < lines.length := chunk_start_lt chunk_size lines.length k hcs hk
  show remove_boundary_markers
      ((if 0 < k * chunk_size then startMarker (k * chunk_size / chunk_size) else []) ++
        ((lines.drop (k * chunk_size)).take chunk_size).flatten ++
        (if k * chunk_size + chunk_size < lines.length
          then endMarker (k * chunk_size / chunk_size) else [])) = _
  rw [Nat.mul_div_cancel k hcs]
  have hw1 : ∀ w ∈ (lines.drop (k * chunk_size)).take chunk_size, w ∈ lines := fun w hw =>
    (List.drop_suffix _ _).subset (List.mem_of_mem_take hw)
  by_cases hend : k * chunk_size + chunk_size < lines.length
  · have hall := window_all_nl chunk_size lines hNL (k * chunk_size) hend
    exact remove_boundary_markers_content k _ _ _
      (fun w hw => hS w (hw1 w hw)) (fun w hw => hE w (hw1 w hw))
      (fun w hw => hall w (List.mem_of_mem_dropLast hw)) (fun _ => hall)
  · have hwindow : (lines.drop (k * chunk_size)).take chunk_size = lines.drop (k * chunk_size) := by
      apply List.take_of_length_le
      rw [List.length_drop]
      omega
    have hdl : (lines.drop (k * chunk_size)).dropLast = lines.dropLast.drop (k * chunk_size) := by
      rw [List.dropLast_eq_take, List.dropLast_eq_take, List.length_drop,
        show lines.length - 1 = k * chunk_size + (lines.length - k * chunk_size - 1) by omega,
        List.take_drop]
    exact remove_boundary_markers_content k _ _ _
      (fun w hw => hS w (hw1 w hw)) (fun w hw => hE w (hw1 w hw))
      (fun w hw => by
        rw [hwindow, hdl] at hw
        exact hNL w (List.mem_of_mem_drop hw))
      (fun he => absurd he hend)

/-- C1 (amended): for every nonempty source file whose content contains no
occurrence of the boundary-marker pattern, and every positive `chunk_size`,
splitting with `split_file` and merging the resulting (untransformed) chunk
records with `merge_chunks` reproduces the file content byte for byte
(after line-ending normalization, which reading in text mode performs). -/
theorem c1_merge_split_roundtrip (chunk_size : Nat) (s : List Char)
    (hcs : 0 < chunk_size) (hs : s ≠ [])
    (hS : hasMarker startPre s = false) (hE : hasMarker endPre s = false) :
    merge_chunks (split_file chunk_size (readLines s)) = some s := by
  have hflat : (readLines s).flatten = s := readLines_flatten s
  have hlne : readLines s ≠ [] := by
    intro hx
    rw [hx] at hflat
    exact hs (by simpa using hflat.symm)
  have hlpos : 0 < (readLines s).length := List.length_pos.mpr hlne
  have hSw : ∀ w ∈ readLines s, hasMarker startPre w = false := fun w hw =>
    hasMarker_of_mem_flatten (by rw [hflat]; exact hS) hw
  have hEw : ∀ w ∈ readLines s, hasMarker endPre w = false := fun w hw =>
    hasMarker_of_mem_flatten (by rw [hflat]; exact hE) hw
  have hNL : ∀ w ∈ (readLines s).dropLast, w.getLast? = some '\n' :=
    readLinesGo_dropLast_nl s []
  have hNpos : 0 < ((readLines s).length + (chunk_size - 1)) / chunk_size :=
    Nat.div_pos (by omega) hcs
  have hchne : split_file chunk_size (readLines s) ≠ [] := by
    intro hx
    have := split_file_length chunk_size (readLines s)
    rw [hx] at this
    simp at this
    omega
  rw [merge_chunks_eq _ hchne,
    sortByIndex_of_sorted _ (split_file_pairwise chunk_size hcs (readLines s)),
    split_file_map_scrub chunk_size hcs (readLines s) hSw hEw hNL]
  have hkey : ((List.range (((readLines s).length + (chunk_size - 1)) / chunk_size)).map
      (fun k => (((readLines s).drop (k * chunk_size)).take chunk_size).flatten)).flatten
      = s := by
    rw [show (fun k => (((readLines s).drop (k * chunk_size)).take chunk_size).flatten) =
        (List.flatten ∘ fun k => ((readLines s).drop (k * chunk_size)).take chunk_size)
      from rfl]
    rw [← List.map_map, ← List.flatten_flatten, range_windows_flatten]
    rw [List.take_of_length_le (len_le_numchunks_mul chunk_size (readLines s).length hcs)]
    exact hflat
  obtain ⟨b0, bs, hmap⟩ : ∃ b0 bs,
      (List.range (((readLines s).length + (chunk_size - 1)) / chunk_size)).map
        (fun k => (((readLines s).drop (k * chunk_size)).take chunk_size).flatten) =
        b0 :: bs := by
    cases hmm : (List.range (((readLines s).length + (chunk_size - 1)) / chunk_size)).map
        (fun k => (((readLines s).drop (k * chunk_size)).take chunk_size).flatten) with
    | nil =>
      exfalso
      have := congrArg List.length hmm
      simp at this
      omega
    | cons b0 bs => exact ⟨b0, bs, rfl⟩
  rw [hmap]
  show some (mergeGlue b0 bs) = some s
  rw [mergeGlue_eq_flatten bs b0 ?_, ← hmap, hkey]
  -- every body except the last ends with a newline
  intro x hx
  rw [← hmap, (List.map_dropLast _ _).symm] at hx
  have hdlr : (List.range (((readLines s).length + (chunk_size - 1)) / chunk_size)).dropLast =
      List.range ((((readLines s).length + (chunk_size - 1)) / chunk_size) - 1) := by
    obtain ⟨M, hM⟩ : ∃ M, ((readLines s).length + (chunk_size - 1)) / chunk_size = M + 1 :=
      ⟨_, (Nat.succ_pred_eq_of_pos hNpos).symm⟩
    rw [hM, List.range_succ, List.dropLast_concat]
    simp
  rw [hdlr] at hx
  rw [List.mem_map] at hx
  obtain ⟨k, hk, rfl⟩ := hx
  rw [List.mem_range] at hk
  have hend : k * chunk_size + chunk_size < (readLines s).length := by
    have h1 : (k + 1) * chunk_size ≤
        ((((readLines s).length + (chunk_size - 1)) / chunk_size) - 1) * chunk_size :=
      Nat.mul_le_mul_right _ (by omega)
    have h2 : ((((readLines s).length + (chunk_size - 1)) / chunk_size) - 1) * chunk_size <
        (readLines s).length := by
      apply chunk_start_lt chunk_size _ _ hcs
      omega
    have h3 : (k + 1) * chunk_size = k * chunk_size + chunk_size := by ring
    omega
  have hall := window_all_nl chunk_size (readLines s) hNL (k * chunk_size) hend
  apply flatten_ends_nl _ ?_ hall
  intro hx
  have := congrArg List.length hx
  rw [List.length_take, List.length_drop] at this
  simp at this
  omega

/-- Witness for C1 at a concrete file: `"a\nb"` with `chunk_size = 1`
round-trips through split and merge. -/
theorem c1_merge_split_roundtrip_witness :
    merge_chunks (split_file 1 (readLines ('a' :: '\n' :: ['b']))) =
      some ('a' :: '\n' :: ['b']) :=
  c1_merge_split_roundtrip 1 ('a' :: '\n' :: ['b']) (by decide) (by decide) (by decide)
    (by decide)

/-- Counterexample to C1 as stated: a one-line file whose single line is
itself a start-marker string is destroyed by the merge-time scrubber, so
`merge(split(F))` is the empty file, not `F`. -/
theorem c1_roundtrip_counterexample :
    merge_chunks (split_file 1 (readLines
      ('-' :: '-' :: '-' :: 'C' :: 'H' :: 'U' :: 'N' :: 'K' :: '_' :: 'S' :: 'T' :: 'A' ::
        'R' :: 'T' :: '_' :: '0' :: '-' :: '-' :: '-' :: ['\n']))) ≠
      some ('-' :: '-' :: '-' :: 'C' :: 'H' :: 'U' :: 'N' :: 'K' :: '_' :: 'S' :: 'T' :: 'A' ::
        'R' :: 'T' :: '_' :: '0' :: '-' :: '-' :: '-' :: ['\n']) := by
  decide

/-- C5 (amended): the scrubber is idempotent on every content whose
scrubbed form contains no further marker occurrence (removal can splice the
surrounding text into a brand-new marker occurrence, so this side condition
is necessary — see the counterexample). -/
theorem c5_scrubber_idempotent (s : List Char)
    (h1 : hasMarker startPre (remove_boundary_markers s) = false)
    (h2 : hasMarker endPre (remove_boundary_markers s) = false) :
    remove_boundary_markers (remove_boundary_markers s) = remove_boundary_markers s := by
  unfold remove_boundary_markers
  rw [show subMarker startPre (subMarker endPre (subMarker startPre s)) =
    subMarker startPre (remove_boundary_markers s) from rfl]
  rw [subMarker_eq_self h1]
  exact subMarker_eq_self h2

/-- Witness for C5: scrubbing an ordinary chunk content is idempotent. -/
theorem c5_scrubber_idempotent_witness :
    remove_boundary_markers (remove_boundary_markers
      ('x' :: '\n' :: '-' :: '-' :: '-' :: 'C' :: 'H' :: 'U' :: 'N' :: 'K' :: '_' :: 'E' ::
        'N' :: 'D' :: '_' :: '0' :: '0' :: '0' :: '1' :: '-' :: '-' :: '-' :: ['\n'])) =
      remove_boundary_markers
      ('x' :: '\n' :: '-' :: '-' :: '-' :: 'C' :: 'H' :: 'U' :: 'N' :: 'K' :: '_' :: 'E' ::
        'N' :: 'D' :: '_' :: '0' :: '0' :: '0' :: '1' :: '-' :: '-' :: '-' :: ['\n']) :=
  c5_scrubber_idempotent _ (by decide) (by decide)

/-- Counterexample to C5 as stated: removing the inner start-marker from
this string splices its flanks into a new start-marker occurrence, which
only a second pass removes, so one application differs from two. -/
theorem c5_scrubber_not_idempotent :
    remove_boundary_markers (remove_boundary_markers
      ('-' :: '-' :: '-' :: 'C' :: 'H' :: 'U' :: 'N' :: 'K' :: '_' :: 'S' :: 'T' :: 'A' ::
        'R' :: 'T' :: '_' :: '-' :: '-' :: '-' :: 'C' :: 'H' :: 'U' :: 'N' :: 'K' :: '_' ::
        'S' :: 'T' :: 'A' :: 'R' :: 'T' :: '_' :: '1' :: '-' :: '-' :: '-' :: '1' :: '-' ::
        '-' :: ['-'])) ≠
      remove_boundary_markers
      ('-' :: '-' :: '-' :: 'C' :: 'H' :: 'U' :: 'N' :: 'K' :: '_' :: 'S' :: 'T' :: 'A' ::
        'R' :: 'T' :: '_' :: '-' :: '-' :: '-' :: 'C' :: 'H' :: 'U' :: 'N' :: 'K' :: '_' ::
        'S' :: 'T' :: 'A' :: 'R' :: 'T' :: '_' :: '1' :: '-' :: '-' :: '-' :: '1' :: '-' ::
        '-' :: ['-']) := by
  decide

/-- C2: when the external transform call fails (raises), `translate_chunk`
returns the chunk's original, untransformed content for both request-making
providers, and the per-chunk task still writes a chunk record whose
addressing metadata (`chunk_index`, `start_line`, `end_line`, marker flags)
is unchanged — the chunk is never dropped, so the file's line coverage is
preserved for the merger. -/
theorem c2_transform_failure_keeps_original :
    (∀ content : List Char,
      translate_chunk strGroq (Except.error ()) content = some content ∧
      translate_chunk strOpenai (Except.error ()) content = some content) ∧
    (∀ cd : ChunkRecord,
      translate_chunk_with_semaphore strGroq (Except.error ()) cd =
        some { cd with content :=
          validate_translation cd.content (clean_markdown_blocks cd.content) } ∧
      translate_chunk_with_semaphore strOpenai (Except.error ()) cd =
        some { cd with content :=
          validate_translation cd.content (clean_markdown_blocks cd.content) }) := by
  have hg : ∀ content : List Char,
      translate_chunk strGroq (Except.error ()) content = some content := by
    intro content
    unfold translate_chunk
    rw [if_pos (Or.inl rfl)]
  have ho : ∀ content : List Char,
      translate_chunk strOpenai (Except.error ()) content = some content := by
    intro content
    unfold translate_chunk
    rw [if_pos (Or.inr rfl)]
  refine ⟨fun content => ⟨hg content, ho content⟩, fun cd => ⟨?_, ?_⟩⟩
  · unfold translate_chunk_with_semaphore
    rw [hg cd.content]
  · unfold translate_chunk_with_semaphore
    rw [ho cd.content]

/-- C9: `"anthropic"` is offered by the CLI and accepted by `setup_client`,
yet `translate_chunk` has no request branch for it and returns `None` for
every chunk; consequently every per-chunk task fails in post-processing
(`clean_markdown_blocks(None)` raises `TypeError`, the `except` returns
`False`) and writes no translated chunk artifact, so no chunk is ever
translated under that provider. -/
theorem c9_anthropic_never_translates :
    strAnthropic ∈ cliProviderChoices ∧ setup_client strAnthropic = true ∧
    (∀ (callResult : Except Unit (List Char)) (content : List Char),
      translate_chunk strAnthropic callResult content = none) ∧
    (∀ (callResult : Except Unit (List Char)) (cd : ChunkRecord),
      translate_chunk_with_semaphore strAnthropic callResult cd = none) := by
  have htc : ∀ (callResult : Except Unit (List Char)) (content : List Char),
      translate_chunk strAnthropic callResult content = none := by
    intro callResult content
    unfold translate_chunk
    rw [if_neg (by decide)]
  refine ⟨by decide, by decide, htc, ?_⟩
  intro callResult cd
  unfold translate_chunk_with_semaphore
  rw [htc callResult cd.content]

/-- C10: an empty source file has no `readlines` lines, `split_file`
produces zero chunk records for it, `merge_chunks` then finds no chunks and
returns `False` (`none`), and `translate_project` records the file as a
failed merge instead of reproducing it in the output project. -/
theorem c10_empty_file_fails_merge (chunk_size : Nat) (parse_errors : List Diag)
    (isPy : Bool) (custom_instructions : List Char) :
    readLines [] = [] ∧
    split_file chunk_size [] = [] ∧
    merge_chunks (split_file chunk_size []) = none ∧
    file_merge_result parse_errors isPy custom_instructions [] (split_file chunk_size []) =
      ⟨false, [Diag.mergeFailed]⟩ := by
  have hsplit : split_file chunk_size [] = [] := by
    unfold split_file
    have hz : (([] : List (List Char)).length + (chunk_size - 1)) / chunk_size = 0 := by
      rcases Nat.eq_zero_or_pos chunk_size with h | h
      · subst h; rfl
      · simp only [List.length_nil, Nat.zero_add]
        exact Nat.div_eq_of_lt (by omega)
    rw [hz]
    rfl
  exact ⟨rfl, hsplit, by rw [hsplit]; rfl, by rw [hsplit]; rfl⟩

/-! ### The Local Guard -/

theorem not_drift_of_eq_length {no nt : Nat} (h : no = nt) : ¬ lineDriftTooBigP no nt := by
  intro hbig
  unfold lineDriftTooBigP at hbig
  rw [h, sub_self] at hbig
  have h10 : (10 : ℚ) ≤ max 10 ((nt : ℚ) * (15 / 100)) := le_max_left _ _
  rw [gt_iff_lt] at hbig
  simp only [Int.natAbs_zero, Nat.cast_zero] at hbig
  linarith

theorem validate_translation_of_drift {original translated : List Char}
    (h : lineDriftTooBigP (pySplitlines original).length (pySplitlines translated).length) :
    validate_translation original translated = original := by
  unfold validate_translation
  rw [if_pos ?_]
  constructor
  · intro he
    exact not_drift_of_eq_length he h
  · exact decide_eq_true h

theorem validate_translation_of_not_drift {original translated : List Char}
    (h : ¬ lineDriftTooBigP (pySplitlines original).length (pySplitlines translated).length) :
    validate_translation original translated =
      List.intercalate ['\n'] (firstLineFix (pySplitlines original) (pySplitlines translated)) := by
  unfold validate_translation
  rw [if_neg ?_]
  rintro ⟨_, hbig⟩
  exact h (of_decide_eq_true hbig)

/-- C3: when the transformed line count differs from the original's count
`N` by more than `max(10, 0.15 × N)` the Local Guard discards the
transform and returns the original content verbatim; when the difference
is at most that threshold the transformed text is retained, subject only
to the first-line repair (and re-joined with newline separators). -/
theorem c3_drift_rejection (original translated : List Char) :
    (lineDriftTooBigP (pySplitlines original).length (pySplitlines translated).length →
      validate_translation original translated = original) ∧
    (¬ lineDriftTooBigP (pySplitlines original).length (pySplitlines translated).length →
      validate_translation original translated =
        List.intercalate ['\n']
          (firstLineFix (pySplitlines original) (pySplitlines translated))) :=
  ⟨fun h => validate_translation_of_drift h, fun h => validate_translation_of_not_drift h⟩

/-- Witness for C3: a 12-line chunk shrunk to one line (drift 11 > 10) is
discarded in favour of the original; a 2-line chunk transformed to 2 lines
is retained (first-line repair applied, joined with newlines). -/
theorem c3_drift_rejection_witness :
    validate_translation (List.replicate 12 ('a' :: ['\n'])).flatten ('b' :: []) =
        (List.replicate 12 ('a' :: ['\n'])).flatten ∧
      validate_translation ('x' :: '\n' :: ['y']) ('p' :: '\n' :: ['q']) =
        List.intercalate ['\n']
          (firstLineFix (pySplitlines ('x' :: '\n' :: ['y']))
            (pySplitlines ('p' :: '\n' :: ['q']))) :=
  ⟨(c3_drift_rejection (List.replicate 12 ('a' :: ['\n'])).flatten ('b' :: [])).1
      (by decide),
    (c3_drift_rejection ('x' :: '\n' :: ['y']) ('p' :: '\n' :: ['q'])).2 (by decide)⟩

theorem pySplitGo_ne_nil_of_acc : ∀ (s acc : List Char), acc ≠ [] → pySplitGo acc s ≠ [] := by
  intro s
  induction s with
  | nil =>
    intro acc h
    simp [pySplitGo, h]
  | cons c t ih =>
    intro acc h
    unfold pySplitGo
    by_cases hc : pyIsSpace c = true
    · rw [if_pos hc, if_neg h]
      simp
    · rw [Bool.not_eq_true] at hc
      rw [if_neg (by simp [hc])]
      exact ih (c :: acc) (by simp)

theorem pySplitGo_ne_nil_of_mem : ∀ (s acc : List Char),
    (∃ c ∈ s, pyIsSpace c = false) → pySplitGo acc s ≠ [] := by
  intro s
  induction s with
  | nil => intro acc h; simp at h
  | cons c t ih =>
    intro acc h
    unfold pySplitGo
    by_cases hc : pyIsSpace c = true
    · have hwit : ∃ x ∈ t, pyIsSpace x = false := by
        rcases h with ⟨x, hx, hpx⟩
        rcases List.mem_cons.mp hx with rfl | hxt
        · rw [hc] at hpx; exact absurd hpx (by simp)
        · exact ⟨x, hxt, hpx⟩
      rw [if_pos hc]
      by_cases ha : acc = []
      · rw [if_pos ha]; exact ih [] hwit
      · rw [if_neg ha]; simp
    · rw [Bool.not_eq_true] at hc
      rw [if_neg (by simp [hc])]
      exact pySplitGo_ne_nil_of_acc t (c :: acc) (by simp)

theorem pySplitGo_all_space : ∀ s : List Char,
    (∀ c ∈ s, pyIsSpace c = true) → pySplitGo [] s = [] := by
  intro s
  induction s with
  | nil => intro _; rfl
  | cons c t ih =>
    intro h
    unfold pySplitGo
    rw [if_pos (h c (List.mem_cons_self c t)), if_pos rfl]
    exact ih (fun x hx => h x (List.mem_cons_of_mem c hx))

theorem pySplit_nonspace_of_ne_nil {s : List Char} (h : pySplit s ≠ []) :
    ∃ c ∈ s, pyIsSpace c = false := by
  by_contra hall
  push_neg at hall
  apply h
  apply pySplitGo_all_space
  intro c hc
  have := hall c hc
  cases hx : pyIsSpace c with
  | true => rfl
  | false => exact absurd hx this

theorem pySplit_ne_nil_of_mem {s : List Char} (h : ∃ c ∈ s, pyIsSpace c = false) :
    pySplit s ≠ [] :=
  pySplitGo_ne_nil_of_mem s [] h

/-- C6: when the original first line, trimmed, is nonempty and does not open
a comment, and the leading whitespace token after stripping the bracket
characters differs between original and transformed first lines, the Local
Guard replaces the transformed first line with the original's first line
verbatim. -/
theorem c6_first_line_restore (original translated : List Char)
    (o0 t0 : List Char) (orest trest : List (List Char))
    (ho : pySplitlines original = o0 :: orest)
    (ht : pySplitlines translated = t0 :: trest)
    (hdrift : ¬ lineDriftTooBigP (pySplitlines original).length (pySplitlines translated).length)
    (hne : pyStrip o0 ≠ [])
    (hc1 : startsWithStr slashSlash (pyStrip o0) = false)
    (hc2 : startsWithStr hashStr (pyStrip o0) = false)
    (ow tw : List Char) (otl ttl : List (List Char))
    (how : pySplit (stripBrackets (pyStrip o0)) = ow :: otl)
    (htw : pySplit (stripBrackets (pyStrip t0)) = tw :: ttl)
    (hdiff : ow ≠ tw) :
    validate_translation original translated = List.intercalate ['\n'] (o0 :: trest) := by
  rw [validate_translation_of_not_drift hdrift, ho, ht]
  congr 1
  unfold firstLineFix
  dsimp only
  rw [if_pos ⟨hne, hc1, hc2⟩]
  have hsplit_of : pySplit (pyStrip o0) ≠ [] := by
    apply pySplit_ne_nil_of_mem
    rcases pySplit_nonspace_of_ne_nil
        (show pySplit (stripBrackets (pyStrip o0)) ≠ [] by rw [how]; simp)
      with ⟨c, hc, hcs⟩
    exact ⟨c, List.mem_of_mem_filter hc, hcs⟩
  have hsplit_tf : pySplit (pyStrip t0) ≠ [] := by
    apply pySplit_ne_nil_of_mem
    rcases pySplit_nonspace_of_ne_nil
        (show pySplit (stripBrackets (pyStrip t0)) ≠ [] by rw [htw]; simp)
      with ⟨c, hc, hcs⟩
    exact ⟨c, List.mem_of_mem_filter hc, hcs⟩
  rw [if_pos ⟨List.length_pos.mpr hsplit_of, List.length_pos.mpr hsplit_tf⟩]
  rw [if_pos ?_]
  rw [how, htw]
  simp only [List.length_cons, List.head?_cons]
  rw [decide_eq_true_eq]
  exact ⟨by omega, by simpa using hdiff⟩

/-- Witness for C6 at the spec's concrete scenario: the first line
`def f(x, y):` corrupted to `function f(x, y):` is restored. -/
theorem c6_first_line_restore_witness :
    validate_translation
      ('d' :: 'e' :: 'f' :: ' ' :: 'f' :: '(' :: 'x' :: ',' :: ' ' :: 'y' :: ')' :: [':'])
      ('f' :: 'u' :: 'n' :: 'c' :: 't' :: 'i' :: 'o' :: 'n' :: ' ' :: 'f' :: '(' :: 'x' ::
        ',' :: ' ' :: 'y' :: ')' :: [':']) =
      List.intercalate ['\n']
        (('d' :: 'e' :: 'f' :: ' ' :: 'f' :: '(' :: 'x' :: ',' :: ' ' :: 'y' :: ')' ::
          [':']) :: []) :=
  c6_first_line_restore
    ('d' :: 'e' :: 'f' :: ' ' :: 'f' :: '(' :: 'x' :: ',' :: ' ' :: 'y' :: ')' :: [':'])
    ('f' :: 'u' :: 'n' :: 'c' :: 't' :: 'i' :: 'o' :: 'n' :: ' ' :: 'f' :: '(' :: 'x' ::
      ',' :: ' ' :: 'y' :: ')' :: [':'])
    ('d' :: 'e' :: 'f' :: ' ' :: 'f' :: '(' :: 'x' :: ',' :: ' ' :: 'y' :: ')' :: [':'])
    ('f' :: 'u' :: 'n' :: 'c' :: 't' :: 'i' :: 'o' :: 'n' :: ' ' :: 'f' :: '(' :: 'x' ::
      ',' :: ' ' :: 'y' :: ')' :: [':'])
    [] [] (by decide) (by decide) (by decide) (by decide) (by decide) (by decide)
    ('d' :: 'e' :: ['f']) ('f' :: 'u' :: 'n' :: 'c' :: 't' :: 'i' :: 'o' :: ['n'])
    [('f' :: 'x' :: [',']), ('y' :: [':'])] [('f' :: 'x' :: [',']), ('y' :: [':'])]
    (by decide) (by decide) (by decide)

/-! ### The scripted-character check -/

theorem mem_insertChar {x c : Char} : ∀ l : List Char, x ∈ insertChar c l ↔ x = c ∨ x ∈ l := by
  intro l
  induction l with
  | nil => simp [insertChar]
  | cons d ds ih =>
    unfold insertChar
    by_cases hcd : c ≤ d
    · rw [if_pos hcd]
      simp
    · rw [if_neg hcd]
      simp only [List.mem_cons, ih]
      tauto

theorem mem_sortedChars {x : Char} : ∀ l : List Char, x ∈ sortedChars l ↔ x ∈ l := by
  intro l
  induction l with
  | nil => simp [sortedChars]
  | cons c cs ih =>
    show x ∈ insertChar c (sortedChars cs) ↔ _
    rw [mem_insertChar, ih]
    simp

theorem mem_cjkSet {c : Char} {s : List Char} : c ∈ cjkSet s ↔ isCJK c = true ∧ c ∈ s := by
  unfold cjkSet
  rw [List.mem_dedup, List.mem_filter]
  tauto

theorem mem_setDiff {c : Char} {a b : List Char} : c ∈ setDiff a b ↔ c ∈ a ∧ c ∉ b := by
  unfold setDiff
  rw [List.mem_filter]
  simp [List.contains]

theorem mem_setInter {c : Char} {a b : List Char} : c ∈ setInter a b ↔ c ∈ a ∧ c ∈ b := by
  unfold setInter
  rw [List.mem_filter]
  simp [List.contains]

theorem validate_chinese_valid_eq (ci o t : List Char) :
    (validate_chinese_characters ci o t).valid =
      decide ((validate_chinese_characters ci o t).errors = []) := rfl

/-- C7: under the preserve policy, every CJK character present in the
original but missing from the merged output is reported among the lost
characters, and every CJK character newly appearing is reported among the
new characters; under the translate policy (and no preserve policy, which
the `elif` gives precedence), every CJK character present in both files is
reported among the untranslated characters; with neither policy the check
emits no diagnostics; and whenever the check emits any diagnostic the
file's ValidationResult has `valid = false`. -/
theorem c7_scripted_character_check (custom_instructions original translated : List Char)
    (parse_errors : List Diag) (isPy : Bool) :
    (containsStr preserveTag custom_instructions = true →
      (∀ c : Char, isCJK c = true → c ∈ original → c ∉ translated →
        ∃ cs, Diag.lostChinese cs ∈
            (validate_chinese_characters custom_instructions original translated).errors ∧
          c ∈ cs) ∧
      (∀ c : Char, isCJK c = true → c ∈ translated → c ∉ original →
        ∃ cs, Diag.newChinese cs ∈
            (validate_chinese_characters custom_instructions original translated).errors ∧
          c ∈ cs)) ∧
    (containsStr translateTag custom_instructions = true →
      containsStr preserveTag custom_instructions = false →
      ∀ c : Char, isCJK c = true → c ∈ original → c ∈ translated →
        ∃ cs, Diag.notTranslatedChinese cs ∈
            (validate_chinese_characters custom_instructions original translated).errors ∧
          c ∈ cs) ∧
    (containsStr preserveTag custom_instructions = false →
      containsStr translateTag custom_instructions = false →
      (validate_chinese_characters custom_instructions original translated).errors = []) ∧
    ((validate_chinese_characters custom_instructions original translated).errors ≠ [] →
      (validate_merged_file parse_errors isPy custom_instructions original translated).valid =
        false) := by
  refine ⟨fun hp => ⟨?_, ?_⟩, fun htr hpf => ?_, fun hpf htf => ?_, fun hne => ?_⟩
  · intro c hcjk hco hct
    have hlost : c ∈ setDiff (cjkSet original) (cjkSet translated) := by
      rw [mem_setDiff, mem_cjkSet]
      exact ⟨⟨hcjk, hco⟩, fun hx => hct (mem_cjkSet.mp hx).2⟩
    have hlne : setDiff (cjkSet original) (cjkSet translated) ≠ [] := by
      intro hx; rw [hx] at hlost; simp at hlost
    refine ⟨sortedChars (setDiff (cjkSet original) (cjkSet translated)), ?_,
      (mem_sortedChars _).mpr hlost⟩
    show Diag.lostChinese _ ∈ (validate_chinese_characters _ _ _).errors
    unfold validate_chinese_characters
    dsimp only
    rw [if_pos hp, if_pos hlne]
    exact List.mem_append_left _ (List.mem_singleton.mpr rfl)
  · intro c hcjk hct hco
    have hnew : c ∈ setDiff (cjkSet translated) (cjkSet original) := by
      rw [mem_setDiff, mem_cjkSet]
      exact ⟨⟨hcjk, hct⟩, fun hx => hco (mem_cjkSet.mp hx).2⟩
    have hnne : setDiff (cjkSet translated) (cjkSet original) ≠ [] := by
      intro hx; rw [hx] at hnew; simp at hnew
    refine ⟨sortedChars (setDiff (cjkSet translated) (cjkSet original)), ?_,
      (mem_sortedChars _).mpr hnew⟩
    show Diag.newChinese _ ∈ (validate_chinese_characters _ _ _).errors
    unfold validate_chinese_characters
    dsimp only
    rw [if_pos hp, if_pos hnne]
    exact List.mem_append_right _ (List.mem_singleton.mpr rfl)
  · intro c hcjk hco hct
    have hrem : c ∈ setInter (cjkSet translated) (cjkSet original) := by
      rw [mem_setInter, mem_cjkSet, mem_cjkSet]
      exact ⟨⟨hcjk, hct⟩, ⟨hcjk, hco⟩⟩
    have hrne : setInter (cjkSet translated) (cjkSet original) ≠ [] := by
      intro hx; rw [hx] at hrem; simp at hrem
    refine ⟨sortedChars (setInter (cjkSet translated) (cjkSet original)), ?_,
      (mem_sortedChars _).mpr hrem⟩
    show Diag.notTranslatedChinese _ ∈ (validate_chinese_characters _ _ _).errors
    unfold validate_chinese_characters
    dsimp only
    rw [if_neg (by rw [hpf]; exact Bool.false_ne_true), if_pos htr, if_pos hrne]
    exact List.mem_singleton.mpr rfl
  · show (validate_chinese_characters _ _ _).errors = []
    unfold validate_chinese_characters
    dsimp only
    rw [if_neg (by rw [hpf]; exact Bool.false_ne_true),
      if_neg (by rw [htf]; exact Bool.false_ne_true)]
  · have hchv : (validate_chinese_characters custom_instructions original translated).valid =
        false := by
      rw [validate_chinese_valid_eq]
      exact decide_eq_false hne
    show (validate_merged_file _ _ _ _ _).valid = false
    unfold validate_merged_file
    dsimp only
    rw [decide_eq_false_iff_not]
    intro hall
    rw [List.append_eq_nil, List.append_eq_nil, List.append_eq_nil, List.append_eq_nil] at hall
    have he4 := hall.1.2
    rw [if_pos hchv] at he4
    exact hne he4

/-- Witness for C7 at the spec's concrete scenario: a file containing a CJK
character under the preserve policy whose merged output lost it is reported
under lost characters and the ValidationResult is invalid. -/
theorem c7_scripted_character_check_witness :
    (∃ cs, Diag.lostChinese cs ∈
        (validate_chinese_characters preserveTag ('中' :: ['\n']) ('q' :: ['\n'])).errors ∧
      '中' ∈ cs) ∧
    (validate_merged_file [] false preserveTag ('中' :: ['\n']) ('q' :: ['\n'])).valid =
      false :=
  ⟨((c7_scripted_character_check preserveTag ('中' :: ['\n']) ('q' :: ['\n']) [] false).1
      (by decide)).1 '中' (by decide) (by decide) (by decide),
    (c7_scripted_character_check preserveTag ('中' :: ['\n']) ('q' :: ['\n']) [] false).2.2.2
      (by decide)⟩

end TransLLM
